import Mathlib

/-!
# Verification of the Nx task-result cache (`packages/workspace/src/tasks-runner/cache.ts`)

This file gives a shallow embedding of the cache core:

* an on-disk state is a tree of directories and files (`FSNode`);
* every filesystem primitive used by `cache.ts` (`exists`, `lstat`, `readdir`,
  `readFile`, `writeFile`, `mkdir`, `ensureDir`, `remove`, `unlink`, `copy`)
  is modelled as a function on that tree, failing with an `FSError` exactly
  where the Node API rejects;
* the asynchronous methods of the `Cache` class are modelled in a monad `M`
  that threads the disk state, propagates errors, and records a trace of the
  mutating operations and remote-store invocations (errors propagate while the
  state changes performed so far persist, as for a real disk);
* JavaScript's `Number(string)` coercion (which never throws and yields `NaN`
  on garbage) is modelled by `jsStrToNum` into `JSNum`.

Paths are lists of name components.  JS `path.join` on POSIX concatenates the
components of its arguments, so `join(a, b)` becomes `a ++ splitPath b`;
`.`/`..` normalization and duplicate separators are not modelled (the cache
never builds such paths from its own names).
-/

set_option autoImplicit false

universe u

namespace Nx

/-- A filesystem tree: a file with string contents, or a directory with a
named list of children. -/
inductive FSNode where
  | file : String → FSNode
  | dir : List (String × FSNode) → FSNode

/-- Errors surfaced by the modelled filesystem primitives. -/
inductive FSError where
  | enoent : List String → FSError
  | eexist : List String → FSError
  | enotdir : List String → FSError
  | eisdir : List String → FSError
deriving DecidableEq

/-- First entry with the given name in a directory listing. -/
def findEntry (k : String) : List (String × FSNode) → Option FSNode
  | [] => none
  | (k1, n) :: rest => if k1 = k then some n else findEntry k rest

/-- Replace (or append) the entry with the given name. -/
def setEntry (k : String) (v : FSNode) : List (String × FSNode) → List (String × FSNode)
  | [] => [(k, v)]
  | (k1, n) :: rest => if k1 = k then (k, v) :: rest else (k1, n) :: setEntry k v rest

/-- Drop the entries with the given name. -/
def dropEntry (k : String) : List (String × FSNode) → List (String × FSNode)
  | [] => []
  | (k1, n) :: rest => if k1 = k then dropEntry k rest else (k1, n) :: dropEntry k rest

/-- Resolve a path inside a tree. -/
def FSNode.lookup : FSNode → List String → Option FSNode
  | n, [] => some n
  | FSNode.file _, _ :: _ => none
  | FSNode.dir es, k :: rest =>
    match findEntry k es with
    | none => none
    | some c => FSNode.lookup c rest

/-- `fs.writeFile`: create or overwrite a file; the parent must be an
existing directory and the target must not be a directory. -/
def writeF : FSNode → List String → String → Except FSError FSNode
  | _, [], _ => Except.error (FSError.eisdir [])
  | FSNode.file _, p, _ => Except.error (FSError.enotdir p)
  | FSNode.dir es, [k], c =>
    match findEntry k es with
    | some (FSNode.dir _) => Except.error (FSError.eisdir [k])
    | _ => Except.ok (FSNode.dir (setEntry k (FSNode.file c) es))
  | FSNode.dir es, k :: rest, c =>
    match findEntry k es with
    | none => Except.error (FSError.enoent (k :: rest))
    | some child =>
      match writeF child rest c with
      | Except.error e => Except.error e
      | Except.ok child1 => Except.ok (FSNode.dir (setEntry k child1 es))

/-- `fs.mkdir` (non-recursive): the parent must be an existing directory and
the target must not exist. -/
def mkdirF : FSNode → List String → Except FSError FSNode
  | _, [] => Except.error (FSError.eexist [])
  | FSNode.file _, p => Except.error (FSError.enotdir p)
  | FSNode.dir es, [k] =>
    match findEntry k es with
    | some _ => Except.error (FSError.eexist [k])
    | none => Except.ok (FSNode.dir (setEntry k (FSNode.dir []) es))
  | FSNode.dir es, k :: rest =>
    match findEntry k es with
    | none => Except.error (FSError.enoent (k :: rest))
    | some child =>
      match mkdirF child rest with
      | Except.error e => Except.error e
      | Except.ok child1 => Except.ok (FSNode.dir (setEntry k child1 es))

/-- `fs-extra.ensureDir` (`mkdir -p`): create every missing directory along
the path; fails if a path component is a file. -/
def ensureDirF : FSNode → List String → Except FSError FSNode
  | FSNode.dir es, [] => Except.ok (FSNode.dir es)
  | FSNode.file _, p => Except.error (FSError.enotdir p)
  | FSNode.dir es, k :: rest =>
    match findEntry k es with
    | none =>
      match ensureDirF (FSNode.dir []) rest with
      | Except.error e => Except.error e
      | Except.ok child1 => Except.ok (FSNode.dir (setEntry k child1 es))
    | some child =>
      match ensureDirF child rest with
      | Except.error e => Except.error e
      | Except.ok child1 => Except.ok (FSNode.dir (setEntry k child1 es))

/-- `fs-extra.remove` (`rm -rf`): delete the subtree at the path; never an
error, and a no-op when nothing is there. -/
def removeF : FSNode → List String → FSNode
  | n, [] => n
  | FSNode.file c, _ :: _ => FSNode.file c
  | FSNode.dir es, [k] => FSNode.dir (dropEntry k es)
  | FSNode.dir es, k :: rest =>
    match findEntry k es with
    | none => FSNode.dir es
    | some child => FSNode.dir (setEntry k (removeF child rest) es)

/-- `fs.unlink`: delete a file; fails when the path is missing or names a
directory. -/
def unlinkF : FSNode → List String → Except FSError FSNode
  | _, [] => Except.error (FSError.eisdir [])
  | FSNode.file _, p => Except.error (FSError.enotdir p)
  | FSNode.dir es, [k] =>
    match findEntry k es with
    | none => Except.error (FSError.enoent [k])
    | some (FSNode.dir _) => Except.error (FSError.eisdir [k])
    | some (FSNode.file _) => Except.ok (FSNode.dir (dropEntry k es))
  | FSNode.dir es, k :: rest =>
    match findEntry k es with
    | none => Except.error (FSError.enoent (k :: rest))
    | some child =>
      match unlinkF child rest with
      | Except.error e => Except.error e
      | Except.ok child1 => Except.ok (FSNode.dir (setEntry k child1 es))

/-- Place a node at a path, creating missing intermediate directories
(`fs-extra.copy` runs `mkdirp` on the destination's parent) and replacing
whatever was at the destination.  Fails when an intermediate component is a
file.  `fs-extra.copy` merges directory trees instead of replacing them; on
the states `Cache.put` reaches (a freshly created entry directory whose
content is always copied out of the live workspace) merging and replacing
agree, so the simpler replacement semantics is used. -/
def putAt : FSNode → List String → FSNode → Except FSError FSNode
  | _, [], v => Except.ok v
  | FSNode.file _, p, _ => Except.error (FSError.enotdir p)
  | FSNode.dir es, k :: rest, v =>
    match findEntry k es with
    | none =>
      match putAt (FSNode.dir []) rest v with
      | Except.error e => Except.error e
      | Except.ok child1 => Except.ok (FSNode.dir (setEntry k child1 es))
    | some child =>
      match putAt child rest v with
      | Except.error e => Except.error e
      | Except.ok child1 => Except.ok (FSNode.dir (setEntry k child1 es))

/-- `fs.readFile` (utf-8). -/
def readF (fs : FSNode) (p : List String) : Except FSError String :=
  match fs.lookup p with
  | some (FSNode.file c) => Except.ok c
  | some (FSNode.dir _) => Except.error (FSError.eisdir p)
  | none => Except.error (FSError.enoent p)

/-- `fs.lstat(...).isFile()`. -/
def lstatIsFileF (fs : FSNode) (p : List String) : Except FSError Bool :=
  match fs.lookup p with
  | some (FSNode.file _) => Except.ok true
  | some (FSNode.dir _) => Except.ok false
  | none => Except.error (FSError.enoent p)

/-- `fs.readdir`: the names in a directory. -/
def readdirF (fs : FSNode) (p : List String) : Except FSError (List String) :=
  match fs.lookup p with
  | some (FSNode.dir es) => Except.ok (es.map Prod.fst)
  | some (FSNode.file _) => Except.error (FSError.enotdir p)
  | none => Except.error (FSError.enoent p)

/-- Whether a node is a plain file. -/
def isFileB : FSNode → Bool
  | FSNode.file _ => true
  | FSNode.dir _ => false

/-! ## Path strings

`path.join` on POSIX concatenates path components, and `cache.ts` splits
output paths on `path.sep` to build hash-record names.  JS
`'a/b'.split('/') = ['a','b']` and `''.split('/') = ['']`. -/

/-- Worker for `splitPath`. -/
def splitPathAux : List Char → List Char → List String
  | [], acc => [String.mk acc.reverse]
  | c :: rest, acc =>
    if c = '/' then String.mk acc.reverse :: splitPathAux rest []
    else splitPathAux rest (c :: acc)

/-- JS `s.split('/')` (the POSIX `path.sep`). -/
def splitPath (s : String) : List String :=
  splitPathAux s.data []

/-- JS `l.join('-')`. -/
def joinDash : List String → String
  | [] => ""
  | [s] => s
  | s :: rest => s ++ "-" ++ joinDash rest

/-! ## JavaScript numbers, as far as the cache needs them

`Number(string)` never throws: it yields the numeric value of a decimal
string and `NaN` on anything unparseable (`Number('') = 0`).  The cache only
ever writes `code.toString()` of an integer exit code, so integers and the
`NaN` failure mode are modelled; fractional/hexadecimal/exponent forms and
surrounding whitespace (which the cache never writes) are not. -/

/-- A JS number as the cache observes it: an integer or `NaN`. -/
inductive JSNum where
  | num : Int → JSNum
  | nan : JSNum
deriving DecidableEq

/-- Numeric value of a decimal digit character. -/
def charVal (c : Char) : Nat := c.toNat - 48

/-- Parse a non-empty all-digit character list as a decimal `Nat`. -/
def parseDigits (cs : List Char) : Option Nat :=
  if cs = [] then none
  else if cs.all Char.isDigit then
    some (Nat.ofDigits 10 ((cs.map charVal).reverse))
  else none

/-- JS `Number(s)` on the strings the cache can meet. -/
def jsStrToNum (s : String) : JSNum :=
  match s.data with
  | [] => JSNum.num 0
  | c :: rest =>
    if c = '-' then
      match parseDigits rest with
      | some n => JSNum.num (-(n : Int))
      | none => JSNum.nan
    else if c = '+' then
      match parseDigits rest with
      | some n => JSNum.num (n : Int)
      | none => JSNum.nan
    else
      match parseDigits (c :: rest) with
      | some n => JSNum.num (n : Int)
      | none => JSNum.nan

/-- Decimal rendering of a natural number (JS `n.toString()`). -/
def natToString (n : Nat) : String :=
  if n = 0 then "0"
  else String.mk ((Nat.digits 10 n).reverse.map Nat.digitChar)

/-- Decimal rendering of an integer (JS `code.toString()`). -/
def intToString (i : Int) : String :=
  if i < 0 then "-" ++ natToString i.natAbs else natToString i.toNat

/-! ## The effect monad

A computation takes the disk state to a result (or an error), the new disk
state, and the trace of mutating filesystem steps and remote-store calls it
performed.  Errors propagate to the caller, but — as on a real disk — the
state changes already made persist. -/

/-- Trace entries: the mutating filesystem steps of the cache, plus the
orchestration points (local-store reads and remote-store calls). -/
inductive Event where
  | removeEv : List String → Event
  | mkdirEv : List String → Event
  | ensureDirEv : List String → Event
  | writeFileEv : List String → String → Event
  | copyEv : List String → List String → Event
  | unlinkEv : List String → Event
  | localGetEv : String → Event
  | remoteRetrieveEv : String → Event
  | remoteStoreEv : String → Event
deriving DecidableEq

/-- Events emitted by the output-copying loop of `put`. -/
def Event.isCopyStep : Event → Bool
  | Event.ensureDirEv _ => true
  | Event.copyEv _ _ => true
  | _ => false

/-- Errors a cache operation can raise: an I/O failure, or a failure reported
by the configured remote store while mirroring an entry. -/
inductive CacheError where
  | io : FSError → CacheError
  | remoteStoreFailed : String → CacheError
deriving DecidableEq

/-- Outcome of running a cache computation on a disk state. -/
structure MOut (α : Type u) where
  res : Except CacheError α
  fs : FSNode
  evs : List Event

/-- The cache's effect monad. -/
def M (α : Type u) : Type u := FSNode → MOut α

/-- Sequential composition: on an error the trace and state so far are kept. -/
def M.bind {α β : Type u} (x : M α) (f : α → M β) : M β := fun fs =>
  match x fs with
  | ⟨Except.error e, fs1, evs⟩ => ⟨Except.error e, fs1, evs⟩
  | ⟨Except.ok a, fs1, evs⟩ =>
    let o := f a fs1
    ⟨o.res, o.fs, evs ++ o.evs⟩

/-- Return a value without touching the disk. -/
def M.pure {α : Type u} (a : α) : M α := fun fs => ⟨Except.ok a, fs, []⟩

instance : Monad M where
  pure := M.pure
  bind := M.bind

/-- JS `try { x } catch (e) { h(e) }`. -/
def tryM {α : Type u} (x : M α) (h : CacheError → M α) : M α := fun fs =>
  match x fs with
  | ⟨Except.error e, fs1, evs⟩ =>
    let o := h e fs1
    ⟨o.res, o.fs, evs ++ o.evs⟩
  | ok => ok

/-- `util.promisify(exists)`: never fails, no trace. -/
def existsA (p : List String) : M Bool := fun fs =>
  ⟨Except.ok (fs.lookup p).isSome, fs, []⟩

/-- `readFile(p, 'utf-8')`. -/
def readFileM (p : List String) : M String := fun fs =>
  match readF fs p with
  | Except.ok c => ⟨Except.ok c, fs, []⟩
  | Except.error e => ⟨Except.error (CacheError.io e), fs, []⟩

/-- `lstat(p).isFile()`. -/
def lstatIsFileM (p : List String) : M Bool := fun fs =>
  match lstatIsFileF fs p with
  | Except.ok b => ⟨Except.ok b, fs, []⟩
  | Except.error e => ⟨Except.error (CacheError.io e), fs, []⟩

/-- `readdir p`. -/
def readdirM (p : List String) : M (List String) := fun fs =>
  match readdirF fs p with
  | Except.ok l => ⟨Except.ok l, fs, []⟩
  | Except.error e => ⟨Except.error (CacheError.io e), fs, []⟩

/-- `writeFile p c`; the trace records the attempt. -/
def writeFileM (p : List String) (c : String) : M Unit := fun fs =>
  match writeF fs p c with
  | Except.ok fs1 => ⟨Except.ok (), fs1, [Event.writeFileEv p c]⟩
  | Except.error e => ⟨Except.error (CacheError.io e), fs, [Event.writeFileEv p c]⟩

/-- `mkdir p`. -/
def mkdirM (p : List String) : M Unit := fun fs =>
  match mkdirF fs p with
  | Except.ok fs1 => ⟨Except.ok (), fs1, [Event.mkdirEv p]⟩
  | Except.error e => ⟨Except.error (CacheError.io e), fs, [Event.mkdirEv p]⟩

/-- `ensureDir p`. -/
def ensureDirM (p : List String) : M Unit := fun fs =>
  match ensureDirF fs p with
  | Except.ok fs1 => ⟨Except.ok (), fs1, [Event.ensureDirEv p]⟩
  | Except.error e => ⟨Except.error (CacheError.io e), fs, [Event.ensureDirEv p]⟩

/-- `remove p` (never fails). -/
def removeM (p : List String) : M Unit := fun fs =>
  ⟨Except.ok (), removeF fs p, [Event.removeEv p]⟩

/-- `unlink p`. -/
def unlinkM (p : List String) : M Unit := fun fs =>
  match unlinkF fs p with
  | Except.ok fs1 => ⟨Except.ok (), fs1, [Event.unlinkEv p]⟩
  | Except.error e => ⟨Except.error (CacheError.io e), fs, [Event.unlinkEv p]⟩

/-- `copy src dst`. -/
def copyM (src dst : List String) : M Unit := fun fs =>
  match fs.lookup src with
  | none => ⟨Except.error (CacheError.io (FSError.enoent src)), fs, [Event.copyEv src dst]⟩
  | some v =>
    match putAt fs dst v with
    | Except.ok fs1 => ⟨Except.ok (), fs1, [Event.copyEv src dst]⟩
    | Except.error e => ⟨Except.error (CacheError.io e), fs, [Event.copyEv src dst]⟩

/-- Trace marker for entering the local-store read (`getFromLocalDir`);
pure instrumentation used to state orchestration-order properties. -/
def markLocalGet (h : String) : M Unit := fun fs =>
  ⟨Except.ok (), fs, [Event.localGetEv h]⟩

/-! ## The cache data model (`cache.ts`) -/

/-- What `getFromLocalDir` returns on a hit (`CachedResult` in the source). -/
structure CachedResult where
  terminalOutput : String
  outputsPath : List String
  code : JSNum
deriving DecidableEq

/-- A task, at the interface the cache consumes: its content hash. -/
structure Task where
  hash : String

/-- `TaskWithCachedResult` in the source. -/
structure TaskWithCachedResult where
  task : Task
  cachedResult : CachedResult

/-- The optional remote store, at its interface boundary: `retrieve` may
populate the local disk in an arbitrary way; `store` reports success or
failure of mirroring and is modelled as not touching the local disk. -/
structure RemoteCache where
  retrieve : String → FSNode → FSNode
  store : String → FSNode → Bool

/-- `remoteCache.retrieve(hash, cachePath)`: may repopulate the disk in an
arbitrary way; awaited, and modelled as always resolving. -/
def remoteRetrieveM (rc : RemoteCache) (h : String) : M Unit := fun fs =>
  ⟨Except.ok (), rc.retrieve h fs, [Event.remoteRetrieveEv h]⟩

/-- `remoteCache.store(hash, cachePath)`: awaited; a reported failure is
raised to the caller. -/
def remoteStoreM (rc : RemoteCache) (h : String) : M Unit := fun fs =>
  if rc.store h fs then ⟨Except.ok (), fs, [Event.remoteStoreEv h]⟩
  else ⟨Except.error (CacheError.remoteStoreFailed h), fs, [Event.remoteStoreEv h]⟩

/-- The slice of `DefaultTasksRunnerOptions` the cache reads. -/
structure CacheOptions where
  remoteCache : Option RemoteCache

/-- The `Cache` class: workspace root, resolved cache directory, options.
(The cache-directory resolution itself lives outside the excerpted core.) -/
structure Cache where
  root : List String
  cachePath : List String
  options : CacheOptions

/-- `this.terminalOutputsDir`. -/
def Cache.terminalOutputsDir (c : Cache) : List String :=
  c.cachePath ++ ["terminalOutputs"]

/-- `this.latestOutputsHashesDir`. -/
def Cache.latestOutputsHashesDir (c : Cache) : List String :=
  c.cachePath ++ ["latestOutputsHashes"]

/-- `temporaryOutputPath(task)`. -/
def Cache.temporaryOutputPath (c : Cache) (task : Task) : List String :=
  c.terminalOutputsDir ++ [task.hash]

/-- `getFileNameWithLatestRecordedHashForOutput(output)`:
`join(latestOutputsHashesDir, output.split(sep).join('-') + '.hash')`. -/
def Cache.getFileNameWithLatestRecordedHashForOutput (c : Cache) (output : String) :
    List String :=
  c.latestOutputsHashesDir ++ [joinDash (splitPath output) ++ ".hash"]

/-- `getFromLocalDir(task)`: commit-gated read of an entry. -/
def Cache.getFromLocalDir (c : Cache) (task : Task) : M (Option CachedResult) := do
  markLocalGet task.hash
  let tdCommit := c.cachePath ++ [task.hash ++ ".commit"]
  let td := c.cachePath ++ [task.hash]
  let committed ← existsA tdCommit
  if committed then
    let terminalOutput ← readFileM (td ++ ["terminalOutput"])
    let code ← tryM
      (do
        let s ← readFileM (td ++ ["code"])
        M.pure (jsStrToNum s))
      (fun _ => M.pure (JSNum.num 0))
    M.pure (some { terminalOutput := terminalOutput,
                   outputsPath := td ++ ["outputs"], code := code })
  else
    M.pure none

/-- `get(task)`: local read, then one remote `retrieve` plus one local retry
on a miss when a remote store is configured. -/
def Cache.get (c : Cache) (task : Task) : M (Option CachedResult) := do
  let res ← c.getFromLocalDir task
  match res, c.options.remoteCache with
  | none, some rc => do
    remoteRetrieveM rc task.hash
    c.getFromLocalDir task
  | _, _ => M.pure res

/-- One iteration of the output-copying loop inside `put`: if the declared
output exists in the workspace, ensure the parent directory inside
`outputs/` (the path itself for a directory tree) and copy it in; a missing
output is skipped. -/
def Cache.copyOutputStep (c : Cache) (td : List String) (f : String) : M Unit := do
  let src := c.root ++ splitPath f
  let ex ← existsA src
  if ex then
    let cached := td ++ ["outputs"] ++ splitPath f
    let isFile ← lstatIsFileM src
    let directory := if isFile then cached.dropLast else cached
    ensureDirM directory
    copyM src cached
  else
    M.pure ()

/-- The output-copying loop inside `put`, in declaration order. -/
def Cache.copyOutputsLoop (c : Cache) (td : List String) : List String → M Unit
  | [] => M.pure ()
  | f :: rest => do
    c.copyOutputStep td f
    c.copyOutputsLoop td rest

/-- `put(task, terminalOutput, outputs, code)`. -/
def Cache.put (c : Cache) (task : Task) (terminalOutput : Option String)
    (outputs : List String) (code : Int) : M Unit := do
  let td := c.cachePath ++ [task.hash]
  let tdCommit := c.cachePath ++ [task.hash ++ ".commit"]
  removeM tdCommit
  removeM td
  mkdirM td
  writeFileM (td ++ ["terminalOutput"]) (terminalOutput.getD "no terminal output")
  mkdirM (td ++ ["outputs"])
  c.copyOutputsLoop td outputs
  writeFileM (td ++ ["code"]) (intToString code)
  writeFileM tdCommit "true"
  match c.options.remoteCache with
  | some rc => remoteStoreM rc task.hash
  | none => M.pure ()

/-- `getLatestRecordedHashForTask(output)`: the recorded hash, `null` when
unreadable. -/
def Cache.getLatestRecordedHashForTask (c : Cache) (output : String) : M (Option String) :=
  tryM
    (do
      let s ← readFileM (c.getFileNameWithLatestRecordedHashForOutput output)
      M.pure (some s))
    (fun _ => M.pure none)

/-- `recordOutputsHash(outputs, hash)`: best-effort record writes. -/
def Cache.recordOutputsHash (c : Cache) (outputs : List String) (hash : String) : M Unit :=
  match outputs with
  | [] => M.pure ()
  | o :: rest => do
    tryM
      (do
        let hashFile := c.getFileNameWithLatestRecordedHashForOutput o
        ensureDirM hashFile.dropLast
        writeFileM hashFile hash)
      (fun _ => M.pure ())
    c.recordOutputsHash rest hash

/-- `removeRecordedOutputsHashes(outputs)`: best-effort record deletion. -/
def Cache.removeRecordedOutputsHashes (c : Cache) (outputs : List String) : M Unit :=
  match outputs with
  | [] => M.pure ()
  | o :: rest => do
    tryM (unlinkM (c.getFileNameWithLatestRecordedHashForOutput o)) (fun _ => M.pure ())
    c.removeRecordedOutputsHashes rest

/-- `areLatestOutputsHashesDifferentThanTaskHash(outputs, hash)`. -/
def Cache.areLatestOutputsHashesDifferentThanTaskHash (c : Cache)
    (outputs : List String) (hash : String) : M Bool :=
  match outputs with
  | [] => M.pure false
  | output :: rest => do
    let r ← c.getLatestRecordedHashForTask output
    if r ≠ some hash then M.pure true
    else c.areLatestOutputsHashesDifferentThanTaskHash rest hash

/-- `isAnyOutputMissing(cachedResult, outputs)`, with the source's exact
short-circuit structure: the file-only missing check, then the
`haveDifferentAmountOfFiles` readdir comparison (which runs whenever both
copies exist, even on files). -/
def Cache.isAnyOutputMissing (c : Cache) (cachedResult : CachedResult) :
    List String → M Bool
  | [] => M.pure false
  | output :: rest => do
    let cacheOutputPath := cachedResult.outputsPath ++ splitPath output
    let rootOutputPath := c.root ++ splitPath output
    let ex1 ← existsA cacheOutputPath
    let isf ← if ex1 then lstatIsFileM cacheOutputPath else M.pure false
    let fileMissing ←
      if ex1 && isf then do
        let a ← existsA (cachedResult.outputsPath ++ splitPath output)
        let b ← existsA (c.root ++ splitPath output)
        M.pure (a && !b)
      else M.pure false
    if fileMissing then M.pure true
    else do
      let ex1b ← existsA cacheOutputPath
      let ex2 ← existsA rootOutputPath
      let haveDifferentAmountOfFiles ←
        if ex1b && ex2 then do
          let l1 ← readdirM cacheOutputPath
          let l2 ← readdirM rootOutputPath
          M.pure (decide (l1.length ≠ l2.length))
        else M.pure false
      if (ex1b && !ex2) || haveDifferentAmountOfFiles then M.pure true
      else c.isAnyOutputMissing cachedResult rest

/-- `shouldCopyOutputsFromCache(taskWithCachedResult, outputs)`. -/
def Cache.shouldCopyOutputsFromCache (c : Cache) (t : TaskWithCachedResult)
    (outputs : List String) : M Bool := do
  let a ← c.areLatestOutputsHashesDifferentThanTaskHash outputs t.task.hash
  if a then M.pure true
  else c.isAnyOutputMissing t.cachedResult outputs

/-! ## Path independence -/

/-- `under q p` : the path `q` equals `p` or lies inside the subtree at `p`. -/
def under : List String → List String → Bool
  | _, [] => true
  | [], _ :: _ => false
  | a :: qs, b :: ps => a == b && under qs ps

/-- Two paths are independent when neither lies under the other; a mutation
at one cannot affect a lookup at the other. -/
def indep (p q : List String) : Bool := !under p q && !under q p

/-! ## Specification-side predicates for the staleness test (C4) -/

/-- The recorded output-hash for an output as stored on disk (`none` when
the record file is unreadable). -/
def recordedHash (c : Cache) (fs : FSNode) (output : String) : Option String :=
  (readF fs (c.getFileNameWithLatestRecordedHashForOutput output)).toOption

/-- Clause (a) of the staleness test, per output: the recorded hash is
absent or differs from the task hash. -/
def recordDiffers (c : Cache) (fs : FSNode) (hash output : String) : Bool :=
  recordedHash c fs output != some hash

/-- Clause (b) exactly as the claim states it, per output: the cached copy
exists as a file while the workspace copy does not, or both copies are
directories with a different number of entries. -/
def claimOutputMissing (c : Cache) (cr : CachedResult) (fs : FSNode) (output : String) : Bool :=
  match fs.lookup (cr.outputsPath ++ splitPath output),
        fs.lookup (c.root ++ splitPath output) with
  | some (FSNode.file _), none => true
  | some (FSNode.dir es1), some (FSNode.dir es2) => es1.length != es2.length
  | _, _ => false

/-- The staleness predicate exactly as the claim states it. -/
def claimShouldCopy (c : Cache) (fs : FSNode) (hash : String) (cr : CachedResult)
    (outputs : List String) : Bool :=
  outputs.any (recordDiffers c fs hash) || outputs.any (claimOutputMissing c cr fs)

/-- What the code actually treats as a drifted output: the cached copy
exists (file or directory) while the workspace copy does not, or both
copies are directories with a different number of entries. -/
def outputDrifted (c : Cache) (cr : CachedResult) (fs : FSNode) (output : String) : Bool :=
  ((fs.lookup (cr.outputsPath ++ splitPath output)).isSome &&
    !(fs.lookup (c.root ++ splitPath output)).isSome) ||
  (match fs.lookup (cr.outputsPath ++ splitPath output),
         fs.lookup (c.root ++ splitPath output) with
   | some (FSNode.dir es1), some (FSNode.dir es2) => es1.length != es2.length
   | _, _ => false)

/-- The input pattern on which the drift scan raises instead of returning a
boolean: both copies of an output exist and at least one of them is a file
(the scan then calls `readdir` on a file). -/
def mixedBothExist (c : Cache) (cr : CachedResult) (fs : FSNode) (output : String) : Bool :=
  match fs.lookup (cr.outputsPath ++ splitPath output),
        fs.lookup (c.root ++ splitPath output) with
  | some (FSNode.file _), some _ => true
  | some _, some (FSNode.file _) => true
  | _, _ => false

/-! ## Concrete instances used by witnesses and counterexamples -/

/-- The task with hash "h". -/
def tH : Task := ⟨"h"⟩

/-- A cache with no remote store, rooted beside its cache directory. -/
def cacheNoRemote : Cache := ⟨["ws"], ["cache"], ⟨none⟩⟩

/-- A remote store that mirrors successfully and retrieves nothing. -/
def rcOk : RemoteCache := ⟨fun _ fs => fs, fun _ _ => true⟩

/-- A remote store whose mirroring always fails. -/
def rcFail : RemoteCache := ⟨fun _ fs => fs, fun _ _ => false⟩

/-- Cache configured with the succeeding remote store. -/
def cacheRemoteOk : Cache := ⟨["ws"], ["cache"], ⟨some rcOk⟩⟩

/-- Cache configured with the failing remote store. -/
def cacheRemoteFail : Cache := ⟨["ws"], ["cache"], ⟨some rcFail⟩⟩

/-- A committed entry for hash "h" as `put` writes it. -/
def entryH : FSNode :=
  FSNode.dir [("terminalOutput", FSNode.file "out"), ("outputs", FSNode.dir []),
              ("code", FSNode.file "0")]

/-- A disk holding a committed entry for "h". -/
def fsHit : FSNode :=
  FSNode.dir [("cache", FSNode.dir [("h", entryH), ("h.commit", FSNode.file "true")]),
              ("ws", FSNode.dir [])]

/-- A remote store whose retrieve populates the local disk with `fsHit`. -/
def rcPop : RemoteCache := ⟨fun _ _ => fsHit, fun _ _ => true⟩

/-- Cache configured with the populating remote store. -/
def cacheRemotePop : Cache := ⟨["ws"], ["cache"], ⟨some rcPop⟩⟩

/-- Partial entry files for "h", but no commit marker. -/
def fsNoMarker : FSNode :=
  FSNode.dir [("cache", FSNode.dir [("h", FSNode.dir
    [("terminalOutput", FSNode.file "junk"),
     ("outputs", FSNode.dir [("a", FSNode.file "x")])])]),
    ("ws", FSNode.dir [])]

/-- Committed entry whose `code` file holds unparseable text. -/
def fsBadCode : FSNode :=
  FSNode.dir [("cache", FSNode.dir
    [("h", FSNode.dir [("terminalOutput", FSNode.file "out"), ("code", FSNode.file "abc")]),
     ("h.commit", FSNode.file "true")]), ("ws", FSNode.dir [])]

/-- A commit marker with no entry files at all. -/
def fsMarkerOnly : FSNode :=
  FSNode.dir [("cache", FSNode.dir [("h.commit", FSNode.file "true")]), ("ws", FSNode.dir [])]

/-- A workspace with one produced output and an empty cache directory. -/
def fsWork : FSNode :=
  FSNode.dir [("cache", FSNode.dir []), ("ws", FSNode.dir [("out.txt", FSNode.file "A")])]

/-- Cached result used by the staleness-test instances. -/
def crX : CachedResult := ⟨"out", ["cache", "X", "outputs"], JSNum.num 0⟩

/-- Disk for the C4 counterexample: matching hash record, cached copy of
"o" is a directory, workspace copy absent. -/
def fsDirMissing : FSNode :=
  FSNode.dir [("cache", FSNode.dir
    [("latestOutputsHashes", FSNode.dir [("o.hash", FSNode.file "h")]),
     ("X", FSNode.dir [("outputs", FSNode.dir [("o", FSNode.dir [])])])]),
    ("ws", FSNode.dir [])]

/-- Disk for the C4 witness: matching record, both copies of "o" are
directories with different entry counts. -/
def fsDirDrift : FSNode :=
  FSNode.dir [("cache", FSNode.dir
    [("latestOutputsHashes", FSNode.dir [("o.hash", FSNode.file "h")]),
     ("X", FSNode.dir [("outputs", FSNode.dir
        [("o", FSNode.dir [("f1", FSNode.file "1")])])])]),
    ("ws", FSNode.dir [("o", FSNode.dir [])])]

/-! ## Running computations: basic lemmas -/

theorem run_pure {α : Type u} (a : α) (fs : FSNode) :
    (M.pure a : M α) fs = ⟨Except.ok a, fs, []⟩ := rfl

theorem run_bind_ok {α β : Type u} {x : M α} {fs : FSNode} {a : α} {fs1 : FSNode}
    {evs : List Event} (f : α → M β) (h : x fs = ⟨Except.ok a, fs1, evs⟩) :
    (x >>= f) fs = ⟨(f a fs1).res, (f a fs1).fs, evs ++ (f a fs1).evs⟩ := by
  show M.bind x f fs = _
  simp only [M.bind, h]

theorem run_bind_error {α β : Type u} {x : M α} {fs : FSNode} {e : CacheError} {fs1 : FSNode}
    {evs : List Event} (f : α → M β) (h : x fs = ⟨Except.error e, fs1, evs⟩) :
    (x >>= f) fs = ⟨Except.error e, fs1, evs⟩ := by
  show M.bind x f fs = _
  simp only [M.bind, h]

/-- Closed form of `getFromLocalDir`: commit-marker gate, then the two reads. -/
theorem getFromLocalDir_run (c : Cache) (t : Task) (fs : FSNode) :
    c.getFromLocalDir t fs =
      match fs.lookup (c.cachePath ++ [t.hash ++ ".commit"]) with
      | none => ⟨Except.ok none, fs, [Event.localGetEv t.hash]⟩
      | some _ =>
        match readF fs (c.cachePath ++ [t.hash, "terminalOutput"]) with
        | Except.error e => ⟨Except.error (CacheError.io e), fs, [Event.localGetEv t.hash]⟩
        | Except.ok out =>
          ⟨Except.ok (some
            { terminalOutput := out,
              outputsPath := c.cachePath ++ [t.hash, "outputs"],
              code :=
                match readF fs (c.cachePath ++ [t.hash, "code"]) with
                | Except.error _ => JSNum.num 0
                | Except.ok s => jsStrToNum s }),
           fs, [Event.localGetEv t.hash]⟩ := by
  unfold Cache.getFromLocalDir
  cases hmk : fs.lookup (c.cachePath ++ [t.hash ++ ".commit"]) with
  | none =>
    simp [Bind.bind, M.bind, markLocalGet, existsA, hmk, M.pure]
  | some v =>
    cases hto : readF fs (c.cachePath ++ [t.hash, "terminalOutput"]) with
    | error e =>
      simp [Bind.bind, M.bind, markLocalGet, existsA, hmk, readFileM, hto, tryM, M.pure]
    | ok out =>
      cases hcd : readF fs (c.cachePath ++ [t.hash, "code"]) with
      | error e =>
        simp [Bind.bind, M.bind, markLocalGet, existsA, hmk, readFileM, hto, hcd, tryM, M.pure]
      | ok s =>
        simp [Bind.bind, M.bind, markLocalGet, existsA, hmk, readFileM, hto, hcd, tryM, M.pure]

/-- `getFromLocalDir` emits exactly its entry marker as trace. -/
theorem getFromLocalDir_evs (c : Cache) (t : Task) (fs : FSNode) :
    (c.getFromLocalDir t fs).evs = [Event.localGetEv t.hash] := by
  rw [getFromLocalDir_run]
  cases fs.lookup (c.cachePath ++ [t.hash ++ ".commit"]) with
  | none => rfl
  | some v =>
    cases readF fs (c.cachePath ++ [t.hash, "terminalOutput"]) with
    | error e => rfl
    | ok out => rfl

/-- `getFromLocalDir` never changes the disk. -/
theorem getFromLocalDir_fs_eq (c : Cache) (t : Task) (fs : FSNode) :
    (c.getFromLocalDir t fs).fs = fs := by
  rw [getFromLocalDir_run]
  cases fs.lookup (c.cachePath ++ [t.hash ++ ".commit"]) with
  | none => rfl
  | some v =>
    cases readF fs (c.cachePath ++ [t.hash, "terminalOutput"]) with
    | error e => rfl
    | ok out => rfl

/-! ## C1: commit marker absent means an ordinary miss -/

/-- C1: for every hash, if the commit-marker file is absent under the cache
root, the local-store get returns absent (`none`) without raising, no matter
what partial files exist under the entry directory. -/
theorem claim1 (c : Cache) (t : Task) (fs : FSNode)
    (h : fs.lookup (c.cachePath ++ [t.hash ++ ".commit"]) = none) :
    (c.getFromLocalDir t fs).res = Except.ok none := by
  simp [getFromLocalDir_run, h]

/-- C1 witness: a disk with partial entry files for "h" but no marker. -/
theorem claim1_witness : (cacheNoRemote.getFromLocalDir tH fsNoMarker).res = Except.ok none :=
  claim1 cacheNoRemote tH fsNoMarker rfl

/-! ## C5: how the `code` file is read back -/

/-- C5 (amended): under a committed entry with readable terminal output,
the returned `code` is 0 when the `code` file is unreadable, and otherwise
the JS numeric conversion of its content — the written integer for decimal
content, but NaN (not 0) for unparseable content. -/
theorem claim5_amended (c : Cache) (t : Task) (fs : FSNode) (v : FSNode) (out : String)
    (hmk : fs.lookup (c.cachePath ++ [t.hash ++ ".commit"]) = some v)
    (hto : readF fs (c.cachePath ++ [t.hash, "terminalOutput"]) = Except.ok out) :
    (c.getFromLocalDir t fs).res = Except.ok (some
      { terminalOutput := out,
        outputsPath := c.cachePath ++ [t.hash, "outputs"],
        code :=
          match readF fs (c.cachePath ++ [t.hash, "code"]) with
          | Except.error _ => JSNum.num 0
          | Except.ok s => jsStrToNum s }) := by
  simp [getFromLocalDir_run, hmk, hto]

/-- C5 witness: committed entry with `code` file "abc". -/
theorem claim5_witness :
    (cacheNoRemote.getFromLocalDir tH fsBadCode).res = Except.ok (some
      { terminalOutput := "out",
        outputsPath := cacheNoRemote.cachePath ++ [tH.hash, "outputs"],
        code :=
          match readF fsBadCode (cacheNoRemote.cachePath ++ [tH.hash, "code"]) with
          | Except.error _ => JSNum.num 0
          | Except.ok s => jsStrToNum s }) :=
  claim5_amended cacheNoRemote tH fsBadCode (FSNode.file "true") "out" rfl rfl

/-- C5 counterexample: with a committed entry whose `code` file holds the
unparseable text "abc", get returns code NaN — not 0 as the claim states. -/
theorem counterexample5 :
    (cacheNoRemote.getFromLocalDir tH fsBadCode).res = Except.ok (some
      { terminalOutput := "out",
        outputsPath := ["cache", "h", "outputs"],
        code := JSNum.nan }) ∧ JSNum.nan ≠ JSNum.num 0 :=
  ⟨rfl, by decide⟩

/-! ## C6: unreadable terminal output under a committed entry is an error -/

/-- C6: when the commit marker exists but the `terminalOutput` file cannot
be read, the local-store get propagates the read error instead of returning
a miss. -/
theorem claim6 (c : Cache) (t : Task) (fs : FSNode) (e : FSError)
    (hmk : (fs.lookup (c.cachePath ++ [t.hash ++ ".commit"])).isSome = true)
    (hto : readF fs (c.cachePath ++ [t.hash, "terminalOutput"]) = Except.error e) :
    (c.getFromLocalDir t fs).res = Except.error (CacheError.io e) := by
  obtain ⟨v, hv⟩ := Option.isSome_iff_exists.mp hmk
  simp [getFromLocalDir_run, hv, hto]

/-- C6 witness: a marker with no entry directory at all. -/
theorem claim6_witness :
    (cacheNoRemote.getFromLocalDir tH fsMarkerOnly).res =
      Except.error (CacheError.io (FSError.enoent ["cache", "h", "terminalOutput"])) :=
  claim6 cacheNoRemote tH fsMarkerOnly (FSError.enoent ["cache", "h", "terminalOutput"]) rfl rfl

/-! ## C7: orchestration of local and remote reads -/

/-- C7: the orchestrator's get consults the local store first; on a hit (or
any non-miss result) or without a remote store the first local result is
returned as-is with no remote call; on a miss with a remote store
configured it performs exactly one remote retrieve followed by exactly one
local retry and returns that second result. -/
theorem claim7 (c : Cache) (t : Task) (fs : FSNode) :
    (c.options.remoteCache = none → c.get t fs = c.getFromLocalDir t fs) ∧
    (∀ rc, c.options.remoteCache = some rc →
      ((c.getFromLocalDir t fs).res ≠ Except.ok none →
        c.get t fs = c.getFromLocalDir t fs) ∧
      ((c.getFromLocalDir t fs).res = Except.ok none →
        c.get t fs =
          ⟨(c.getFromLocalDir t (rc.retrieve t.hash (c.getFromLocalDir t fs).fs)).res,
           (c.getFromLocalDir t (rc.retrieve t.hash (c.getFromLocalDir t fs).fs)).fs,
           [Event.localGetEv t.hash, Event.remoteRetrieveEv t.hash,
            Event.localGetEv t.hash]⟩)) := by
  have hget : c.get t = c.getFromLocalDir t >>= fun res =>
      match res, c.options.remoteCache with
      | none, some rc => remoteRetrieveM rc t.hash >>= fun _ => c.getFromLocalDir t
      | _, _ => M.pure res := rfl
  rcases hg : c.getFromLocalDir t fs with ⟨r, fs1, e1⟩
  have he1 : e1 = [Event.localGetEv t.hash] := by
    have h2 := getFromLocalDir_evs c t fs
    rw [hg] at h2
    exact h2
  refine ⟨?_, fun rc hrc => ⟨?_, ?_⟩⟩
  · intro hrc
    rw [hget]
    cases r with
    | error e => rw [run_bind_error _ hg]
    | ok a =>
      rw [run_bind_ok _ hg]
      cases a with
      | some v => simp [M.pure]
      | none => simp [hrc, M.pure]
  · intro hne
    rw [hget]
    cases r with
    | error e => rw [run_bind_error _ hg]
    | ok a =>
      cases a with
      | some v =>
        rw [run_bind_ok _ hg]
        simp [M.pure]
      | none => exact absurd rfl hne
  · intro hmiss
    have hr : r = Except.ok none := hmiss
    subst hr
    have hrr : remoteRetrieveM rc t.hash fs1 =
        ⟨Except.ok (), rc.retrieve t.hash fs1, [Event.remoteRetrieveEv t.hash]⟩ := rfl
    rw [hget, run_bind_ok _ hg]
    simp only [hrc]
    rw [run_bind_ok _ hrr]
    simp [he1, getFromLocalDir_evs]

/-- C7 witness: a miss followed by a populating retrieve and a successful
retry. -/
theorem claim7_witness :
    cacheRemotePop.get tH (FSNode.dir []) =
      ⟨(cacheRemotePop.getFromLocalDir tH
          (rcPop.retrieve tH.hash (cacheRemotePop.getFromLocalDir tH (FSNode.dir [])).fs)).res,
       (cacheRemotePop.getFromLocalDir tH
          (rcPop.retrieve tH.hash (cacheRemotePop.getFromLocalDir tH (FSNode.dir [])).fs)).fs,
       [Event.localGetEv tH.hash, Event.remoteRetrieveEv tH.hash,
        Event.localGetEv tH.hash]⟩ :=
  ((claim7 cacheRemotePop tH (FSNode.dir [])).2 rcPop rfl).2 rfl

/-! ## Directory-entry and lookup lemmas -/

theorem findEntry_setEntry_self (k : String) (v : FSNode) (es : List (String × FSNode)) :
    findEntry k (setEntry k v es) = some v := by
  induction es with
  | nil => simp [setEntry, findEntry]
  | cons e rest ih =>
    obtain ⟨k1, n⟩ := e
    by_cases h : k1 = k
    · simp [setEntry, findEntry, h]
    · simp [setEntry, findEntry, h, ih]

theorem findEntry_setEntry_ne {k1 k : String} (h : k1 ≠ k) (v : FSNode)
    (es : List (String × FSNode)) : findEntry k1 (setEntry k v es) = findEntry k1 es := by
  induction es with
  | nil => simp [setEntry, findEntry, Ne.symm h]
  | cons e rest ih =>
    obtain ⟨k2, n⟩ := e
    by_cases h2 : k2 = k
    · subst h2
      simp [setEntry, findEntry, h, Ne.symm h]
    · by_cases h3 : k2 = k1
      · simp [setEntry, findEntry, h2, h3, h]
      · simp [setEntry, findEntry, h2, h3, ih]

theorem findEntry_dropEntry_self (k : String) (es : List (String × FSNode)) :
    findEntry k (dropEntry k es) = none := by
  induction es with
  | nil => simp [dropEntry, findEntry]
  | cons e rest ih =>
    obtain ⟨k1, n⟩ := e
    by_cases h : k1 = k
    · simp [dropEntry, h, ih]
    · simp [dropEntry, findEntry, h, ih]

theorem findEntry_dropEntry_ne {k1 k : String} (h : k1 ≠ k) (es : List (String × FSNode)) :
    findEntry k1 (dropEntry k es) = findEntry k1 es := by
  induction es with
  | nil => simp [dropEntry]
  | cons e rest ih =>
    obtain ⟨k2, n⟩ := e
    by_cases h2 : k2 = k
    · subst h2
      simp [dropEntry, findEntry, Ne.symm h, ih]
    · by_cases h3 : k2 = k1
      · simp [dropEntry, findEntry, h2, h3, h]
      · simp [dropEntry, findEntry, h2, h3, ih]

theorem setEntry_of_findEntry {k : String} {v : FSNode} {es : List (String × FSNode)}
    (h : findEntry k es = some v) : setEntry k v es = es := by
  induction es with
  | nil => simp [findEntry] at h
  | cons e rest ih =>
    obtain ⟨k1, n⟩ := e
    by_cases h1 : k1 = k
    · subst h1
      simp [findEntry] at h
      simp [setEntry, h]
    · simp [findEntry, h1] at h
      simp [setEntry, h1, ih h]

theorem lookup_append (fs : FSNode) (p q : List String) :
    fs.lookup (p ++ q) = (fs.lookup p).bind (fun n => n.lookup q) := by
  induction p generalizing fs with
  | nil => simp [FSNode.lookup]
  | cons k rest ih =>
    cases fs with
    | file c => simp [FSNode.lookup]
    | dir es =>
      simp only [List.cons_append, FSNode.lookup]
      cases findEntry k es with
      | none => simp
      | some child => simp [ih]

theorem lookup_some_ancestor {fs : FSNode} {w : List String} {k : String} {s : List String}
    {v : FSNode} (h : fs.lookup (w ++ k :: s) = some v) :
    ∃ es, fs.lookup w = some (FSNode.dir es) := by
  rw [lookup_append] at h
  cases hw : fs.lookup w with
  | none => rw [hw] at h; simp at h
  | some n =>
    rw [hw] at h
    cases n with
    | file c => simp [FSNode.lookup] at h
    | dir es => exact ⟨es, rfl⟩

/-! ## Path-shape lemmas -/

theorem under_iff_exists {q p : List String} : under q p = true ↔ ∃ s, q = p ++ s := by
  induction p generalizing q with
  | nil => simp [under]
  | cons b ps ih =>
    cases q with
    | nil =>
      simp only [under, List.cons_append]
      constructor
      · intro h; cases h
      · rintro ⟨s, hs⟩; cases hs
    | cons a qs =>
      simp only [under, Bool.and_eq_true, beq_iff_eq, ih, List.cons_append]
      constructor
      · rintro ⟨rfl, s, rfl⟩; exact ⟨s, rfl⟩
      · rintro ⟨s, hs⟩
        injection hs with h1 h2
        exact ⟨h1, s, h2⟩

theorem under_refl (p : List String) : under p p = true :=
  under_iff_exists.mpr ⟨[], by simp⟩

theorem under_append (p s : List String) : under (p ++ s) p = true :=
  under_iff_exists.mpr ⟨s, rfl⟩

theorem indep_symm (p q : List String) : indep p q = indep q p := by
  simp [indep, Bool.and_comm]

theorem indep_parts {p q : List String} (h : indep p q = true) :
    under p q = false ∧ under q p = false := by
  unfold indep at h
  constructor
  · cases hu : under p q with
    | false => rfl
    | true => rw [hu] at h; simp at h
  · cases hu : under q p with
    | false => rfl
    | true => rw [hu] at h; simp at h

theorem indep_of_parts {p q : List String} (h1 : under p q = false)
    (h2 : under q p = false) : indep p q = true := by
  unfold indep
  rw [h1, h2]
  rfl

/-- Two prefixes of one list are comparable. -/
theorem under_of_append_eq {o q s s2 : List String} (h : o ++ s = q ++ s2) :
    under o q = true ∨ under q o = true := by
  induction o generalizing q with
  | nil =>
    right
    exact under_iff_exists.mpr ⟨q, by simp⟩
  | cons a os ih =>
    cases q with
    | nil =>
      left
      exact under_iff_exists.mpr ⟨a :: os, by simp⟩
    | cons b qs =>
      injection h with h1 h2
      rcases ih h2 with hc | hc
      · left
        simp [under, h1, hc]
      · right
        simp [under, h1, hc]

theorem indep_extend {w o q : List String} (hw : under w o = true) (h : indep q o = true) :
    indep q w = true := by
  obtain ⟨h1, h2⟩ := indep_parts h
  obtain ⟨s, rfl⟩ := under_iff_exists.mp hw
  apply indep_of_parts
  · cases hq : under q (o ++ s) with
    | false => rfl
    | true =>
      obtain ⟨s2, rfl⟩ := under_iff_exists.mp hq
      have hu : under (o ++ s ++ s2) o = true := by
        rw [List.append_assoc]
        exact under_append o (s ++ s2)
      rw [hu] at h1
      cases h1
  · cases hq : under (o ++ s) q with
    | false => rfl
    | true =>
      obtain ⟨s2, hqs⟩ := under_iff_exists.mp hq
      rcases under_of_append_eq hqs with hc | hc
      · rw [hc] at h2
        cases h2
      · rw [hc] at h1
        cases h1

theorem indep_append_ne {a b : String} (hab : a ≠ b) (p x y : List String) :
    indep (p ++ a :: x) (p ++ b :: y) = true := by
  induction p with
  | nil =>
    simp only [List.nil_append, indep, under, Bool.and_eq_true, Bool.not_eq_true',
      beq_iff_eq]
    constructor
    · simp [hab]
    · simp [Ne.symm hab]
  | cons c ps ih =>
    simp only [List.cons_append, indep, under, beq_self_eq_true, Bool.true_and] at ih ⊢
    exact ih

theorem indep_cons (a : String) (p q : List String) : indep (a :: p) (a :: q) = indep p q := by
  simp [indep, under]

theorem indep_nil (q : List String) : indep q [] = false := by
  simp [indep, under]

theorem indep_nil_left (w : List String) : indep [] w = false := by
  cases w with
  | nil => simp [indep, under]
  | cons a rest => simp [indep, under]

/-! ## Frame lemmas: a mutation at `w` is invisible at any independent `q` -/

theorem writeF_frame {fs fs1 : FSNode} {w : List String} {content : String}
    (h : writeF fs w content = Except.ok fs1) {q : List String} (hq : indep q w = true) :
    fs1.lookup q = fs.lookup q := by
  induction w generalizing fs fs1 q with
  | nil => simp [writeF] at h
  | cons k rest ih =>
    cases fs with
    | file c => simp [writeF] at h
    | dir es =>
      cases q with
      | nil => rw [indep_nil_left] at hq; cases hq
      | cons k1 qrest =>
        by_cases hk : k1 = k
        · subst hk
          rw [indep_cons] at hq
          cases rest with
          | nil => rw [indep_nil] at hq; cases hq
          | cons k2 rest2 =>
            simp only [writeF] at h
            cases hfind : findEntry k1 es with
            | none =>
              simp only [hfind] at h
              exact Except.noConfusion h
            | some child =>
              simp only [hfind] at h
              cases hw : writeF child (k2 :: rest2) content with
              | error e =>
                simp only [hw] at h
                exact Except.noConfusion h
              | ok child1 =>
                simp only [hw] at h
                injection h with h
                subst h
                simp [FSNode.lookup, findEntry_setEntry_self, hfind, ih hw hq]
        · cases rest with
          | nil =>
            simp only [writeF] at h
            cases hfind : findEntry k es with
            | none =>
              simp only [hfind] at h
              injection h with h
              subst h
              simp [FSNode.lookup, findEntry_setEntry_ne hk]
            | some child =>
              cases child with
              | file c2 =>
                simp only [hfind] at h
                injection h with h
                subst h
                simp [FSNode.lookup, findEntry_setEntry_ne hk]
              | dir es2 =>
                simp only [hfind] at h
                exact Except.noConfusion h
          | cons k2 rest2 =>
            simp only [writeF] at h
            cases hfind : findEntry k es with
            | none =>
              simp only [hfind] at h
              exact Except.noConfusion h
            | some child =>
              simp only [hfind] at h
              cases hw : writeF child (k2 :: rest2) content with
              | error e =>
                simp only [hw] at h
                exact Except.noConfusion h
              | ok child1 =>
                simp only [hw] at h
                injection h with h
                subst h
                simp [FSNode.lookup, findEntry_setEntry_ne hk]

theorem mkdirF_frame {fs fs1 : FSNode} {w : List String}
    (h : mkdirF fs w = Except.ok fs1) {q : List String} (hq : indep q w = true) :
    fs1.lookup q = fs.lookup q := by
  induction w generalizing fs fs1 q with
  | nil => simp [mkdirF] at h
  | cons k rest ih =>
    cases fs with
    | file c => simp [mkdirF] at h
    | dir es =>
      cases q with
      | nil => rw [indep_nil_left] at hq; cases hq
      | cons k1 qrest =>
        by_cases hk : k1 = k
        · subst hk
          rw [indep_cons] at hq
          cases rest with
          | nil => rw [indep_nil] at hq; cases hq
          | cons k2 rest2 =>
            simp only [mkdirF] at h
            cases hfind : findEntry k1 es with
            | none =>
              simp only [hfind] at h
              exact Except.noConfusion h
            | some child =>
              simp only [hfind] at h
              cases hw : mkdirF child (k2 :: rest2) with
              | error e =>
                simp only [hw] at h
                exact Except.noConfusion h
              | ok child1 =>
                simp only [hw] at h
                injection h with h
                subst h
                simp [FSNode.lookup, findEntry_setEntry_self, hfind, ih hw hq]
        · cases rest with
          | nil =>
            simp only [mkdirF] at h
            cases hfind : findEntry k es with
            | none =>
              simp only [hfind] at h
              injection h with h
              subst h
              simp [FSNode.lookup, findEntry_setEntry_ne hk]
            | some child =>
              simp only [hfind] at h
              exact Except.noConfusion h
          | cons k2 rest2 =>
            simp only [mkdirF] at h
            cases hfind : findEntry k es with
            | none =>
              simp only [hfind] at h
              exact Except.noConfusion h
            | some child =>
              simp only [hfind] at h
              cases hw : mkdirF child (k2 :: rest2) with
              | error e =>
                simp only [hw] at h
                exact Except.noConfusion h
              | ok child1 =>
                simp only [hw] at h
                injection h with h
                subst h
                simp [FSNode.lookup, findEntry_setEntry_ne hk]

theorem under_nil (q : List String) : under q [] = true := by
  cases q <;> rfl

theorem ensureDirF_frame {fs fs1 : FSNode} {w : List String}
    (h : ensureDirF fs w = Except.ok fs1) {q : List String} (hq : indep q w = true) :
    fs1.lookup q = fs.lookup q := by
  induction w generalizing fs fs1 q with
  | nil =>
    cases fs with
    | file c => simp [ensureDirF] at h
    | dir es =>
      simp only [ensureDirF] at h
      injection h with h
      subst h
      rfl
  | cons k rest ih =>
    cases fs with
    | file c => simp [ensureDirF] at h
    | dir es =>
      cases q with
      | nil => rw [indep_nil_left] at hq; cases hq
      | cons k1 qrest =>
        by_cases hk : k1 = k
        · subst hk
          rw [indep_cons] at hq
          simp only [ensureDirF] at h
          cases hfind : findEntry k1 es with
          | none =>
            simp only [hfind] at h
            cases hw : ensureDirF (FSNode.dir []) rest with
            | error e =>
              simp only [hw] at h
              exact Except.noConfusion h
            | ok child1 =>
              simp only [hw] at h
              injection h with h
              subst h
              cases qrest with
              | nil => rw [indep_nil_left] at hq; cases hq
              | cons q2 qrest2 =>
                simp [FSNode.lookup, findEntry_setEntry_self, hfind, ih hw hq, findEntry]
          | some child =>
            simp only [hfind] at h
            cases hw : ensureDirF child rest with
            | error e =>
              simp only [hw] at h
              exact Except.noConfusion h
            | ok child1 =>
              simp only [hw] at h
              injection h with h
              subst h
              simp [FSNode.lookup, findEntry_setEntry_self, hfind, ih hw hq]
        · simp only [ensureDirF] at h
          cases hfind : findEntry k es with
          | none =>
            simp only [hfind] at h
            cases hw : ensureDirF (FSNode.dir []) rest with
            | error e =>
              simp only [hw] at h
              exact Except.noConfusion h
            | ok child1 =>
              simp only [hw] at h
              injection h with h
              subst h
              simp [FSNode.lookup, findEntry_setEntry_ne hk]
          | some child =>
            simp only [hfind] at h
            cases hw : ensureDirF child rest with
            | error e =>
              simp only [hw] at h
              exact Except.noConfusion h
            | ok child1 =>
              simp only [hw] at h
              injection h with h
              subst h
              simp [FSNode.lookup, findEntry_setEntry_ne hk]

theorem putAt_frame {fs fs1 v : FSNode} {w : List String}
    (h : putAt fs w v = Except.ok fs1) {q : List String} (hq : indep q w = true) :
    fs1.lookup q = fs.lookup q := by
  induction w generalizing fs fs1 q with
  | nil => rw [indep_nil] at hq; cases hq
  | cons k rest ih =>
    cases fs with
    | file c => simp [putAt] at h
    | dir es =>
      cases q with
      | nil => rw [indep_nil_left] at hq; cases hq
      | cons k1 qrest =>
        by_cases hk : k1 = k
        · subst hk
          rw [indep_cons] at hq
          simp only [putAt] at h
          cases hfind : findEntry k1 es with
          | none =>
            simp only [hfind] at h
            cases hw : putAt (FSNode.dir []) rest v with
            | error e =>
              simp only [hw] at h
              exact Except.noConfusion h
            | ok child1 =>
              simp only [hw] at h
              injection h with h
              subst h
              cases qrest with
              | nil => rw [indep_nil_left] at hq; cases hq
              | cons q2 qrest2 =>
                simp [FSNode.lookup, findEntry_setEntry_self, hfind, ih hw hq, findEntry]
          | some child =>
            simp only [hfind] at h
            cases hw : putAt child rest v with
            | error e =>
              simp only [hw] at h
              exact Except.noConfusion h
            | ok child1 =>
              simp only [hw] at h
              injection h with h
              subst h
              simp [FSNode.lookup, findEntry_setEntry_self, hfind, ih hw hq]
        · simp only [putAt] at h
          cases hfind : findEntry k es with
          | none =>
            simp only [hfind] at h
            cases hw : putAt (FSNode.dir []) rest v with
            | error e =>
              simp only [hw] at h
              exact Except.noConfusion h
            | ok child1 =>
              simp only [hw] at h
              injection h with h
              subst h
              simp [FSNode.lookup, findEntry_setEntry_ne hk]
          | some child =>
            simp only [hfind] at h
            cases hw : putAt child rest v with
            | error e =>
              simp only [hw] at h
              exact Except.noConfusion h
            | ok child1 =>
              simp only [hw] at h
              injection h with h
              subst h
              simp [FSNode.lookup, findEntry_setEntry_ne hk]

theorem removeF_frame (fs : FSNode) {w : List String} {q : List String}
    (hq : indep q w = true) : (removeF fs w).lookup q = fs.lookup q := by
  induction w generalizing fs q with
  | nil => cases fs <;> rfl
  | cons k rest ih =>
    cases fs with
    | file c => rfl
    | dir es =>
      cases q with
      | nil => rw [indep_nil_left] at hq; cases hq
      | cons k1 qrest =>
        by_cases hk : k1 = k
        · subst hk
          rw [indep_cons] at hq
          cases rest with
          | nil => rw [indep_nil] at hq; cases hq
          | cons k2 rest2 =>
            simp only [removeF]
            cases hfind : findEntry k1 es with
            | none => rfl
            | some child =>
              simp [FSNode.lookup, findEntry_setEntry_self, hfind, ih child hq]
        · cases rest with
          | nil =>
            simp [removeF, FSNode.lookup, findEntry_dropEntry_ne hk]
          | cons k2 rest2 =>
            simp only [removeF]
            cases hfind : findEntry k es with
            | none => rfl
            | some child =>
              simp [FSNode.lookup, findEntry_setEntry_ne hk]

/-! ## What each mutation leaves at its own path -/

theorem writeF_lookup_self {fs fs1 : FSNode} {w : List String} {content : String}
    (h : writeF fs w content = Except.ok fs1) :
    fs1.lookup w = some (FSNode.file content) := by
  induction w generalizing fs fs1 with
  | nil => simp [writeF] at h
  | cons k rest ih =>
    cases fs with
    | file c => simp [writeF] at h
    | dir es =>
      cases rest with
      | nil =>
        simp only [writeF] at h
        cases hfind : findEntry k es with
        | none =>
          simp only [hfind] at h
          injection h with h
          subst h
          simp [FSNode.lookup, findEntry_setEntry_self]
        | some child =>
          cases child with
          | file c2 =>
            simp only [hfind] at h
            injection h with h
            subst h
            simp [FSNode.lookup, findEntry_setEntry_self]
          | dir es2 =>
            simp only [hfind] at h
            exact Except.noConfusion h
      | cons k2 rest2 =>
        simp only [writeF] at h
        cases hfind : findEntry k es with
        | none =>
          simp only [hfind] at h
          exact Except.noConfusion h
        | some child =>
          simp only [hfind] at h
          cases hw : writeF child (k2 :: rest2) content with
          | error e =>
            simp only [hw] at h
            exact Except.noConfusion h
          | ok child1 =>
            simp only [hw] at h
            injection h with h
            subst h
            simp [FSNode.lookup, findEntry_setEntry_self, ih hw]

theorem mkdirF_lookup_self {fs fs1 : FSNode} {w : List String}
    (h : mkdirF fs w = Except.ok fs1) :
    fs1.lookup w = some (FSNode.dir []) := by
  induction w generalizing fs fs1 with
  | nil => simp [mkdirF] at h
  | cons k rest ih =>
    cases fs with
    | file c => simp [mkdirF] at h
    | dir es =>
      cases rest with
      | nil =>
        simp only [mkdirF] at h
        cases hfind : findEntry k es with
        | none =>
          simp only [hfind] at h
          injection h with h
          subst h
          simp [FSNode.lookup, findEntry_setEntry_self]
        | some child =>
          simp only [hfind] at h
          exact Except.noConfusion h
      | cons k2 rest2 =>
        simp only [mkdirF] at h
        cases hfind : findEntry k es with
        | none =>
          simp only [hfind] at h
          exact Except.noConfusion h
        | some child =>
          simp only [hfind] at h
          cases hw : mkdirF child (k2 :: rest2) with
          | error e =>
            simp only [hw] at h
            exact Except.noConfusion h
          | ok child1 =>
            simp only [hw] at h
            injection h with h
            subst h
            simp [FSNode.lookup, findEntry_setEntry_self, ih hw]

theorem putAt_lookup_deep {fs fs1 v : FSNode} {w : List String}
    (h : putAt fs w v = Except.ok fs1) (s : List String) :
    fs1.lookup (w ++ s) = v.lookup s := by
  induction w generalizing fs fs1 with
  | nil =>
    simp only [putAt] at h
    injection h with h
    subst h
    rfl
  | cons k rest ih =>
    cases fs with
    | file c => simp [putAt] at h
    | dir es =>
      simp only [putAt] at h
      cases hfind : findEntry k es with
      | none =>
        simp only [hfind] at h
        cases hw : putAt (FSNode.dir []) rest v with
        | error e =>
          simp only [hw] at h
          exact Except.noConfusion h
        | ok child1 =>
          simp only [hw] at h
          injection h with h
          subst h
          simp [FSNode.lookup, findEntry_setEntry_self, ih hw]
      | some child =>
        simp only [hfind] at h
        cases hw : putAt child rest v with
        | error e =>
          simp only [hw] at h
          exact Except.noConfusion h
        | ok child1 =>
          simp only [hw] at h
          injection h with h
          subst h
          simp [FSNode.lookup, findEntry_setEntry_self, ih hw]

theorem putAt_of_lookup {fs v : FSNode} {w : List String}
    (h : fs.lookup w = some v) : putAt fs w v = Except.ok fs := by
  induction w generalizing fs with
  | nil =>
    simp only [FSNode.lookup] at h
    injection h with h
    subst h
    cases fs <;> rfl
  | cons k rest ih =>
    cases fs with
    | file c => simp [FSNode.lookup] at h
    | dir es =>
      simp only [FSNode.lookup] at h
      cases hfind : findEntry k es with
      | none => simp [hfind] at h
      | some child =>
        simp only [hfind] at h
        simp only [putAt, hfind, ih h, setEntry_of_findEntry hfind]

theorem ensureDirF_of_lookup_dir {fs : FSNode} {w : List String} {es2 : List (String × FSNode)}
    (h : fs.lookup w = some (FSNode.dir es2)) : ensureDirF fs w = Except.ok fs := by
  induction w generalizing fs with
  | nil =>
    simp only [FSNode.lookup] at h
    injection h with h
    subst h
    rfl
  | cons k rest ih =>
    cases fs with
    | file c => simp [FSNode.lookup] at h
    | dir es =>
      simp only [FSNode.lookup] at h
      cases hfind : findEntry k es with
      | none => simp [hfind] at h
      | some child =>
        simp only [hfind] at h
        simp only [ensureDirF, hfind, ih h, setEntry_of_findEntry hfind]

theorem removeF_lookup_under (fs : FSNode) {w : List String} (hw : w ≠ [])
    (s : List String) : (removeF fs w).lookup (w ++ s) = none := by
  induction w generalizing fs with
  | nil => exact absurd rfl hw
  | cons k rest ih =>
    cases fs with
    | file c => rfl
    | dir es =>
      cases rest with
      | nil =>
        simp [removeF, FSNode.lookup, findEntry_dropEntry_self]
      | cons k2 rest2 =>
        simp only [removeF]
        cases hfind : findEntry k es with
        | none => simp [FSNode.lookup, hfind]
        | some child =>
          simp only [List.cons_append, FSNode.lookup, findEntry_setEntry_self]
          exact ih child (by simp)

theorem ensureDirF_keep_none {fs fs1 : FSNode} {w : List String}
    (h : ensureDirF fs w = Except.ok fs1) {q : List String} (hw : under w q = false)
    (hnone : fs.lookup q = none) : fs1.lookup q = none := by
  induction w generalizing fs fs1 q with
  | nil =>
    cases fs with
    | file c => simp [ensureDirF] at h
    | dir es =>
      simp only [ensureDirF] at h
      injection h with h
      subst h
      exact hnone
  | cons k rest ih =>
    cases fs with
    | file c => simp [ensureDirF] at h
    | dir es =>
      cases q with
      | nil => simp [FSNode.lookup] at hnone
      | cons k1 qrest =>
        by_cases hk : k1 = k
        · subst hk
          have hu : under rest qrest = false := by
            simp only [under, beq_self_eq_true, Bool.true_and] at hw
            exact hw
          simp only [ensureDirF] at h
          cases hfind : findEntry k1 es with
          | none =>
            cases hw2 : ensureDirF (FSNode.dir []) rest with
            | error e =>
              simp only [hfind, hw2] at h
              exact Except.noConfusion h
            | ok child1 =>
              simp only [hfind, hw2] at h
              injection h with h
              subst h
              cases qrest with
              | nil => rw [under_nil] at hu; cases hu
              | cons q2 qrest2 =>
                have : (FSNode.dir ([] : List (String × FSNode))).lookup (q2 :: qrest2) = none := by
                  simp [FSNode.lookup, findEntry]
                simp [FSNode.lookup, findEntry_setEntry_self, ih hw2 hu this]
          | some child =>
            cases hw2 : ensureDirF child rest with
            | error e =>
              simp only [hfind, hw2] at h
              exact Except.noConfusion h
            | ok child1 =>
              simp only [hfind, hw2] at h
              injection h with h
              subst h
              simp only [FSNode.lookup, hfind] at hnone
              simp [FSNode.lookup, findEntry_setEntry_self, ih hw2 hu hnone]
        · simp only [ensureDirF] at h
          cases hfind : findEntry k es with
          | none =>
            cases hw2 : ensureDirF (FSNode.dir []) rest with
            | error e =>
              simp only [hfind, hw2] at h
              exact Except.noConfusion h
            | ok child1 =>
              simp only [hfind, hw2] at h
              injection h with h
              subst h
              have hrw : (FSNode.dir (setEntry k child1 es)).lookup (k1 :: qrest) =
                  (FSNode.dir es).lookup (k1 :: qrest) := by
                simp [FSNode.lookup, findEntry_setEntry_ne hk]
              rw [hrw]
              exact hnone
          | some child =>
            cases hw2 : ensureDirF child rest with
            | error e =>
              simp only [hfind, hw2] at h
              exact Except.noConfusion h
            | ok child1 =>
              simp only [hfind, hw2] at h
              injection h with h
              subst h
              have hrw : (FSNode.dir (setEntry k child1 es)).lookup (k1 :: qrest) =
                  (FSNode.dir es).lookup (k1 :: qrest) := by
                simp [FSNode.lookup, findEntry_setEntry_ne hk]
              rw [hrw]
              exact hnone

/-! ## Decimal round-trip: `Number(code.toString()) = code` -/

theorem digitChar_isDigit {d : Nat} (h : d < 10) : (Nat.digitChar d).isDigit = true := by
  interval_cases d <;> rfl

theorem charVal_digitChar {d : Nat} (h : d < 10) : charVal (Nat.digitChar d) = d := by
  interval_cases d <;> rfl

theorem digitChar_ne_minus {d : Nat} (h : d < 10) : Nat.digitChar d ≠ '-' := by
  interval_cases d <;> decide

theorem digitChar_ne_plus {d : Nat} (h : d < 10) : Nat.digitChar d ≠ '+' := by
  interval_cases d <;> decide

theorem parseDigits_digits {n : Nat} (hn : n ≠ 0) :
    parseDigits ((Nat.digits 10 n).reverse.map Nat.digitChar) = some n := by
  have hmem : ∀ d ∈ Nat.digits 10 n, d < 10 := fun d hd =>
    Nat.digits_lt_base (by norm_num) hd
  have hne : (Nat.digits 10 n).reverse.map Nat.digitChar ≠ [] := by
    simp [Nat.digits_ne_nil_iff_ne_zero.mpr hn]
  unfold parseDigits
  rw [if_neg hne]
  have hall : ((Nat.digits 10 n).reverse.map Nat.digitChar).all Char.isDigit = true := by
    rw [List.all_eq_true]
    intro c hc
    rw [List.mem_map] at hc
    obtain ⟨d, hd, rfl⟩ := hc
    rw [List.mem_reverse] at hd
    exact digitChar_isDigit (hmem d hd)
  rw [if_pos hall]
  have hmap : ((Nat.digits 10 n).reverse.map Nat.digitChar).map charVal =
      (Nat.digits 10 n).reverse := by
    rw [List.map_map]
    conv_rhs => rw [← List.map_id ((Nat.digits 10 n).reverse)]
    apply List.map_congr_left
    intro d hd
    rw [List.mem_reverse] at hd
    simpa using charVal_digitChar (hmem d hd)
  rw [hmap, List.reverse_reverse, Nat.ofDigits_digits]

theorem jsStrToNum_natToString (n : Nat) : jsStrToNum (natToString n) = JSNum.num (n : Int) := by
  by_cases h : n = 0
  · subst h
    rfl
  · have hmem : ∀ d ∈ Nat.digits 10 n, d < 10 := fun d hd =>
      Nat.digits_lt_base (by norm_num) hd
    have hparse := parseDigits_digits h
    unfold natToString
    rw [if_neg h]
    cases hl : (Nat.digits 10 n).reverse.map Nat.digitChar with
    | nil =>
      rw [hl] at hparse
      simp [parseDigits] at hparse
    | cons c rest =>
      have hcmem : c ∈ (Nat.digits 10 n).reverse.map Nat.digitChar := by
        rw [hl]
        exact List.mem_cons_self c rest
      rw [List.mem_map] at hcmem
      obtain ⟨d, hd, hcd⟩ := hcmem
      rw [List.mem_reverse] at hd
      have hd10 : d < 10 := hmem d hd
      rw [hl] at hparse
      subst hcd
      unfold jsStrToNum
      simp only []
      rw [if_neg (digitChar_ne_minus hd10), if_neg (digitChar_ne_plus hd10)]
      rw [hparse]

theorem jsStrToNum_intToString (i : Int) : jsStrToNum (intToString i) = JSNum.num i := by
  unfold intToString
  by_cases h : i < 0
  · rw [if_pos h]
    have hna : i.natAbs ≠ 0 := by
      intro h0
      rw [Int.natAbs_eq_zero] at h0
      omega
    have hdata : ("-" ++ natToString i.natAbs).data = '-' :: (natToString i.natAbs).data := by
      have : ("-" ++ natToString i.natAbs).data = "-".data ++ (natToString i.natAbs).data := rfl
      rw [this]
      rfl
    have hpd : parseDigits (natToString i.natAbs).data = some i.natAbs := by
      unfold natToString
      rw [if_neg hna]
      exact parseDigits_digits hna
    unfold jsStrToNum
    rw [hdata]
    simp only [if_true]
    rw [hpd]
    have habs : (i.natAbs : Int) = -i := by omega
    simp [habs]
  · rw [if_neg h]
    rw [jsStrToNum_natToString]
    have : (i.toNat : Int) = i := Int.toNat_of_nonneg (by omega)
    rw [this]

/-- A hash directory name is never its own commit-marker name. -/
theorem hash_ne_hash_commit (h : String) : h ≠ h ++ ".commit" := by
  intro he
  have hlen := congrArg String.length he
  rw [String.length_append] at hlen
  rw [show (".commit" : String).length = 7 from rfl] at hlen
  omega

/-! ## More path-shape lemmas for the copy loop -/

theorem under_trans {a b c : List String} (h1 : under b a = true) (h2 : under c b = true) :
    under c a = true := by
  obtain ⟨s1, rfl⟩ := under_iff_exists.mp h1
  obtain ⟨s2, rfl⟩ := under_iff_exists.mp h2
  exact under_iff_exists.mpr ⟨s1 ++ s2, by simp⟩

theorem under_append_left (p a b : List String) : under (p ++ a) (p ++ b) = under a b := by
  induction p with
  | nil => rfl
  | cons k rest ih => simp [under, ih]

theorem indep_append_left (p a b : List String) : indep (p ++ a) (p ++ b) = indep a b := by
  simp [indep, under_append_left]

theorem under_dropLast (p : List String) : under p p.dropLast = true := by
  cases hp : p with
  | nil => rfl
  | cons a rest =>
    rw [← hp]
    have hne : p ≠ [] := by rw [hp]; simp
    exact under_iff_exists.mpr ⟨[p.getLast hne], (List.dropLast_append_getLast hne).symm⟩

theorem dropLast_append_ne {q : List String} (hq : q ≠ []) (p : List String) :
    (p ++ q).dropLast = p ++ q.dropLast := by
  induction p with
  | nil => rfl
  | cons a rest ih =>
    have hne : rest ++ q ≠ [] := by
      intro h
      rcases List.append_eq_nil.mp h with ⟨h1, h2⟩
      exact hq h2
    simp only [List.cons_append]
    rw [List.dropLast_cons_of_ne_nil hne]
    rw [ih]

theorem splitPathAux_ne_nil (cs : List Char) (acc : List Char) : splitPathAux cs acc ≠ [] := by
  induction cs generalizing acc with
  | nil => simp [splitPathAux]
  | cons ch rest ih =>
    by_cases h : ch = '/'
    · simp [splitPathAux, h]
    · simp only [splitPathAux, if_neg h]
      exact ih (ch :: acc)

theorem splitPath_ne_nil (s : String) : splitPath s ≠ [] :=
  splitPathAux_ne_nil s.data []

/-- Closed form of one copy-loop iteration. -/
theorem copyOutputStep_run (c : Cache) (td : List String) (f : String) (fs : FSNode) :
    c.copyOutputStep td f fs =
      match fs.lookup (c.root ++ splitPath f) with
      | none => ⟨Except.ok (), fs, []⟩
      | some v =>
        match ensureDirF fs (if isFileB v then td ++ ("outputs" :: splitPath f).dropLast
                             else td ++ "outputs" :: splitPath f) with
        | Except.error e =>
          ⟨Except.error (CacheError.io e), fs,
           [Event.ensureDirEv (if isFileB v then td ++ ("outputs" :: splitPath f).dropLast
                               else td ++ "outputs" :: splitPath f)]⟩
        | Except.ok fs2 =>
          match fs2.lookup (c.root ++ splitPath f) with
          | none =>
            ⟨Except.error (CacheError.io (FSError.enoent (c.root ++ splitPath f))), fs2,
             [Event.ensureDirEv (if isFileB v then td ++ ("outputs" :: splitPath f).dropLast
                                 else td ++ "outputs" :: splitPath f),
              Event.copyEv (c.root ++ splitPath f) (td ++ "outputs" :: splitPath f)]⟩
          | some v2 =>
            match putAt fs2 (td ++ "outputs" :: splitPath f) v2 with
            | Except.error e =>
              ⟨Except.error (CacheError.io e), fs2,
               [Event.ensureDirEv (if isFileB v then td ++ ("outputs" :: splitPath f).dropLast
                                   else td ++ "outputs" :: splitPath f),
                Event.copyEv (c.root ++ splitPath f) (td ++ "outputs" :: splitPath f)]⟩
            | Except.ok fs3 =>
              ⟨Except.ok (), fs3,
               [Event.ensureDirEv (if isFileB v then td ++ ("outputs" :: splitPath f).dropLast
                                   else td ++ "outputs" :: splitPath f),
                Event.copyEv (c.root ++ splitPath f) (td ++ "outputs" :: splitPath f)]⟩ := by
  unfold Cache.copyOutputStep
  cases hsrc : fs.lookup (c.root ++ splitPath f) with
  | none => simp [Bind.bind, M.bind, existsA, hsrc, M.pure]
  | some v =>
    cases v with
    | file cnt =>
      cases hens : ensureDirF fs (td ++ ("outputs" :: splitPath f).dropLast) with
      | error e =>
        simp [Bind.bind, M.bind, existsA, hsrc, M.pure, lstatIsFileM, lstatIsFileF,
          isFileB, ensureDirM, hens]
      | ok fs2 =>
        cases hsrc2 : fs2.lookup (c.root ++ splitPath f) with
        | none =>
          simp [Bind.bind, M.bind, existsA, hsrc, M.pure, lstatIsFileM, lstatIsFileF,
            isFileB, ensureDirM, hens, copyM, hsrc2]
        | some v2 =>
          cases hput : putAt fs2 (td ++ "outputs" :: splitPath f) v2 with
          | error e =>
            simp [Bind.bind, M.bind, existsA, hsrc, M.pure, lstatIsFileM, lstatIsFileF,
              isFileB, ensureDirM, hens, copyM, hsrc2, hput]
          | ok fs3 =>
            simp [Bind.bind, M.bind, existsA, hsrc, M.pure, lstatIsFileM, lstatIsFileF,
              isFileB, ensureDirM, hens, copyM, hsrc2, hput]
    | dir es =>
      cases hens : ensureDirF fs (td ++ "outputs" :: splitPath f) with
      | error e =>
        simp [Bind.bind, M.bind, existsA, hsrc, M.pure, lstatIsFileM, lstatIsFileF,
          isFileB, ensureDirM, hens]
      | ok fs2 =>
        cases hsrc2 : fs2.lookup (c.root ++ splitPath f) with
        | none =>
          simp [Bind.bind, M.bind, existsA, hsrc, M.pure, lstatIsFileM, lstatIsFileF,
            isFileB, ensureDirM, hens, copyM, hsrc2]
        | some v2 =>
          cases hput : putAt fs2 (td ++ "outputs" :: splitPath f) v2 with
          | error e =>
            simp [Bind.bind, M.bind, existsA, hsrc, M.pure, lstatIsFileM, lstatIsFileF,
              isFileB, ensureDirM, hens, copyM, hsrc2, hput]
          | ok fs3 =>
            simp [Bind.bind, M.bind, existsA, hsrc, M.pure, lstatIsFileM, lstatIsFileF,
              isFileB, ensureDirM, hens, copyM, hsrc2, hput]

theorem loop_cons_eq (c : Cache) (td : List String) (f : String) (rest : List String) :
    c.copyOutputsLoop td (f :: rest) =
      c.copyOutputStep td f >>= fun _ => c.copyOutputsLoop td rest := rfl

theorem copyOutputStep_evs (c : Cache) (td : List String) (f : String) (fs : FSNode) :
    ∀ e ∈ (c.copyOutputStep td f fs).evs, e.isCopyStep = true := by
  intro e he
  rw [copyOutputStep_run] at he
  cases hsrc : fs.lookup (c.root ++ splitPath f) with
  | none =>
    simp only [hsrc] at he
    simp at he
  | some v =>
    simp only [hsrc] at he
    cases v with
    | file cnt =>
      simp only [isFileB] at he
      rw [if_true] at he
      cases hens : ensureDirF fs (td ++ ("outputs" :: splitPath f).dropLast) with
      | error e2 =>
        simp only [hens] at he
        simp at he
        subst he
        rfl
      | ok fs2 =>
        simp only [hens] at he
        cases hsrc2 : fs2.lookup (c.root ++ splitPath f) with
        | none =>
          simp only [hsrc2] at he
          simp at he
          rcases he with he | he <;> (subst he; rfl)
        | some v2 =>
          simp only [hsrc2] at he
          cases hput : putAt fs2 (td ++ "outputs" :: splitPath f) v2 with
          | error e2 =>
            simp only [hput] at he
            simp at he
            rcases he with he | he <;> (subst he; rfl)
          | ok fs3 =>
            simp only [hput] at he
            simp at he
            rcases he with he | he <;> (subst he; rfl)
    | dir es =>
      simp only [isFileB] at he
      rw [if_neg Bool.false_ne_true] at he
      cases hens : ensureDirF fs (td ++ "outputs" :: splitPath f) with
      | error e2 =>
        simp only [hens] at he
        simp at he
        subst he
        rfl
      | ok fs2 =>
        simp only [hens] at he
        cases hsrc2 : fs2.lookup (c.root ++ splitPath f) with
        | none =>
          simp only [hsrc2] at he
          simp at he
          rcases he with he | he <;> (subst he; rfl)
        | some v2 =>
          simp only [hsrc2] at he
          cases hput : putAt fs2 (td ++ "outputs" :: splitPath f) v2 with
          | error e2 =>
            simp only [hput] at he
            simp at he
            rcases he with he | he <;> (subst he; rfl)
          | ok fs3 =>
            simp only [hput] at he
            simp at he
            rcases he with he | he <;> (subst he; rfl)

theorem copyOutputStep_res_io (c : Cache) (td : List String) (f : String) (fs : FSNode)
    {er : CacheError} (h : (c.copyOutputStep td f fs).res = Except.error er) :
    ∃ fe, er = CacheError.io fe := by
  rw [copyOutputStep_run] at h
  cases hsrc : fs.lookup (c.root ++ splitPath f) with
  | none =>
    simp only [hsrc] at h
    exact Except.noConfusion h
  | some v =>
    simp only [hsrc] at h
    cases v with
    | file cnt =>
      simp only [isFileB] at h
      rw [if_true] at h
      cases hens : ensureDirF fs (td ++ ("outputs" :: splitPath f).dropLast) with
      | error e2 =>
        simp only [hens] at h
        injection h with h2
        exact ⟨e2, h2.symm⟩
      | ok fs2 =>
        simp only [hens] at h
        cases hsrc2 : fs2.lookup (c.root ++ splitPath f) with
        | none =>
          simp only [hsrc2] at h
          injection h with h2
          exact ⟨FSError.enoent (c.root ++ splitPath f), h2.symm⟩
        | some v2 =>
          simp only [hsrc2] at h
          cases hput : putAt fs2 (td ++ "outputs" :: splitPath f) v2 with
          | error e2 =>
            simp only [hput] at h
            injection h with h2
            exact ⟨e2, h2.symm⟩
          | ok fs3 =>
            simp only [hput] at h
            exact Except.noConfusion h
    | dir es =>
      simp only [isFileB] at h
      rw [if_neg Bool.false_ne_true] at h
      cases hens : ensureDirF fs (td ++ "outputs" :: splitPath f) with
      | error e2 =>
        simp only [hens] at h
        injection h with h2
        exact ⟨e2, h2.symm⟩
      | ok fs2 =>
        simp only [hens] at h
        cases hsrc2 : fs2.lookup (c.root ++ splitPath f) with
        | none =>
          simp only [hsrc2] at h
          injection h with h2
          exact ⟨FSError.enoent (c.root ++ splitPath f), h2.symm⟩
        | some v2 =>
          simp only [hsrc2] at h
          cases hput : putAt fs2 (td ++ "outputs" :: splitPath f) v2 with
          | error e2 =>
            simp only [hput] at h
            injection h with h2
            exact ⟨e2, h2.symm⟩
          | ok fs3 =>
            simp only [hput] at h
            exact Except.noConfusion h

theorem copyOutputStep_frame (c : Cache) (td : List String) (f : String) (fs : FSNode)
    {q : List String} (hq : indep q (td ++ ["outputs"]) = true) :
    (c.copyOutputStep td f fs).fs.lookup q = fs.lookup q := by
  have hc : under (td ++ "outputs" :: splitPath f) (td ++ ["outputs"]) = true := by
    have h1 : td ++ "outputs" :: splitPath f = (td ++ ["outputs"]) ++ splitPath f := by simp
    rw [h1]
    exact under_append _ _
  have hdir : under (td ++ ("outputs" :: splitPath f).dropLast) (td ++ ["outputs"]) = true := by
    rw [List.dropLast_cons_of_ne_nil (splitPath_ne_nil f)]
    have h1 : td ++ "outputs" :: (splitPath f).dropLast =
        (td ++ ["outputs"]) ++ (splitPath f).dropLast := by simp
    rw [h1]
    exact under_append _ _
  have hqc : indep q (td ++ "outputs" :: splitPath f) = true := indep_extend hc hq
  have hqdir : indep q (td ++ ("outputs" :: splitPath f).dropLast) = true := indep_extend hdir hq
  rw [copyOutputStep_run]
  cases hsrc : fs.lookup (c.root ++ splitPath f) with
  | none => rfl
  | some v =>
    cases v with
    | file cnt =>
      simp only [isFileB]
      rw [if_true]
      cases hens : ensureDirF fs (td ++ ("outputs" :: splitPath f).dropLast) with
      | error e2 => rfl
      | ok fs2 =>
        have hpres2 : fs2.lookup q = fs.lookup q := ensureDirF_frame hens hqdir
        dsimp only
        cases hsrc2 : fs2.lookup (c.root ++ splitPath f) with
        | none =>
          show fs2.lookup q = fs.lookup q
          exact hpres2
        | some v2 =>
          dsimp only
          cases hput : putAt fs2 (td ++ "outputs" :: splitPath f) v2 with
          | error e2 =>
            show fs2.lookup q = fs.lookup q
            exact hpres2
          | ok fs3 =>
            show fs3.lookup q = fs.lookup q
            rw [putAt_frame hput hqc, hpres2]
    | dir es =>
      simp only [isFileB]
      rw [if_neg Bool.false_ne_true]
      cases hens : ensureDirF fs (td ++ "outputs" :: splitPath f) with
      | error e2 => rfl
      | ok fs2 =>
        have hpres2 : fs2.lookup q = fs.lookup q := ensureDirF_frame hens hqc
        dsimp only
        cases hsrc2 : fs2.lookup (c.root ++ splitPath f) with
        | none =>
          show fs2.lookup q = fs.lookup q
          exact hpres2
        | some v2 =>
          dsimp only
          cases hput : putAt fs2 (td ++ "outputs" :: splitPath f) v2 with
          | error e2 =>
            show fs2.lookup q = fs.lookup q
            exact hpres2
          | ok fs3 =>
            show fs3.lookup q = fs.lookup q
            rw [putAt_frame hput hqc, hpres2]

theorem copyOutputsLoop_frame (c : Cache) (td : List String) (l : List String)
    {q : List String} (hq : indep q (td ++ ["outputs"]) = true) :
    ∀ fs : FSNode, (c.copyOutputsLoop td l fs).fs.lookup q = fs.lookup q := by
  induction l with
  | nil => intro fs; rfl
  | cons f rest ih =>
    intro fs
    rw [loop_cons_eq]
    rcases hstep : c.copyOutputStep td f fs with ⟨r, fs2, evs⟩
    have hpres : fs2.lookup q = fs.lookup q := by
      have h2 := copyOutputStep_frame c td f fs hq
      rw [hstep] at h2
      exact h2
    cases r with
    | error e =>
      rw [run_bind_error _ hstep]
      exact hpres
    | ok a =>
      rw [run_bind_ok _ hstep]
      show (c.copyOutputsLoop td rest fs2).fs.lookup q = fs.lookup q
      rw [ih fs2, hpres]

theorem copyOutputsLoop_res_io (c : Cache) (td : List String) (l : List String)
    {er : CacheError} :
    ∀ fs : FSNode, (c.copyOutputsLoop td l fs).res = Except.error er →
      ∃ fe, er = CacheError.io fe := by
  induction l with
  | nil =>
    intro fs h
    exact Except.noConfusion h
  | cons f rest ih =>
    intro fs h
    rw [loop_cons_eq] at h
    rcases hstep : c.copyOutputStep td f fs with ⟨r, fs2, evs⟩
    cases r with
    | error e =>
      rw [run_bind_error _ hstep] at h
      have hr : e = er := by
        injection h
      subst hr
      exact copyOutputStep_res_io c td f fs (by rw [hstep])
    | ok a =>
      rw [run_bind_ok _ hstep] at h
      exact ih fs2 h

theorem copyOutputsLoop_evs (c : Cache) (td : List String) (l : List String) :
    ∀ fs : FSNode, ∀ e ∈ (c.copyOutputsLoop td l fs).evs, e.isCopyStep = true := by
  induction l with
  | nil =>
    intro fs e he
    simp [Cache.copyOutputsLoop, M.pure] at he
  | cons f rest ih =>
    intro fs e he
    rw [loop_cons_eq] at he
    rcases hstep : c.copyOutputStep td f fs with ⟨r, fs2, evs⟩
    have hevs : ∀ e2 ∈ evs, e2.isCopyStep = true := by
      intro e2 he2
      have h2 := copyOutputStep_evs c td f fs e2
      rw [hstep] at h2
      exact h2 he2
    cases r with
    | error e2 =>
      rw [run_bind_error _ hstep] at he
      exact hevs e he
    | ok a =>
      rw [run_bind_ok _ hstep] at he
      rcases List.mem_append.mp he with h2 | h2
      · exact hevs e h2
      · exact ih fs2 e h2

/-- Anatomy of a `put` run: unless it fails with an I/O error, every local
step succeeded in order (cleanup, entry creation, population, `code` file,
commit marker last), the final disk is the marker-write result, and the
trace lists the steps in exactly that order with the remote store invoked
only at the very end. -/
theorem put_decomp (c : Cache) (t : Task) (tout : Option String) (outs : List String)
    (cd : Int) (fs : FSNode) :
    (∃ e, (c.put t tout outs cd fs).res = Except.error (CacheError.io e)) ∨
    (∃ fs3 fs4 fs5 fs6 fs7 fs8 evsL,
      mkdirF (removeF (removeF fs (c.cachePath ++ [t.hash ++ ".commit"]))
          (c.cachePath ++ [t.hash])) (c.cachePath ++ [t.hash]) = Except.ok fs3 ∧
      writeF fs3 (c.cachePath ++ [t.hash, "terminalOutput"])
          (tout.getD "no terminal output") = Except.ok fs4 ∧
      mkdirF fs4 (c.cachePath ++ [t.hash, "outputs"]) = Except.ok fs5 ∧
      c.copyOutputsLoop (c.cachePath ++ [t.hash]) outs fs5 = ⟨Except.ok (), fs6, evsL⟩ ∧
      writeF fs6 (c.cachePath ++ [t.hash, "code"]) (intToString cd) = Except.ok fs7 ∧
      writeF fs7 (c.cachePath ++ [t.hash ++ ".commit"]) "true" = Except.ok fs8 ∧
      (c.put t tout outs cd fs).fs = fs8 ∧
      (c.put t tout outs cd fs).evs =
        [Event.removeEv (c.cachePath ++ [t.hash ++ ".commit"]),
         Event.removeEv (c.cachePath ++ [t.hash]),
         Event.mkdirEv (c.cachePath ++ [t.hash]),
         Event.writeFileEv (c.cachePath ++ [t.hash, "terminalOutput"])
           (tout.getD "no terminal output"),
         Event.mkdirEv (c.cachePath ++ [t.hash, "outputs"])] ++ evsL ++
        [Event.writeFileEv (c.cachePath ++ [t.hash, "code"]) (intToString cd),
         Event.writeFileEv (c.cachePath ++ [t.hash ++ ".commit"]) "true"] ++
        (match c.options.remoteCache with
         | some _ => [Event.remoteStoreEv t.hash]
         | none => []) ∧
      ((c.put t tout outs cd fs).res = Except.ok () ∨
       (c.put t tout outs cd fs).res = Except.error (CacheError.remoteStoreFailed t.hash))) := by
  cases hmk3 : mkdirF (removeF (removeF fs (c.cachePath ++ [t.hash ++ ".commit"]))
      (c.cachePath ++ [t.hash])) (c.cachePath ++ [t.hash]) with
  | error e3 =>
    exact Or.inl ⟨e3, by
      simp [Cache.put, Bind.bind, M.bind, removeM, mkdirM, hmk3]⟩
  | ok fs3 =>
    cases hw4 : writeF fs3 (c.cachePath ++ [t.hash, "terminalOutput"])
        (tout.getD "no terminal output") with
    | error e4 =>
      exact Or.inl ⟨e4, by
        simp [Cache.put, Bind.bind, M.bind, removeM, mkdirM, writeFileM, hmk3, hw4]⟩
    | ok fs4 =>
      cases hmk5 : mkdirF fs4 (c.cachePath ++ [t.hash, "outputs"]) with
      | error e5 =>
        exact Or.inl ⟨e5, by
          simp [Cache.put, Bind.bind, M.bind, removeM, mkdirM, writeFileM, hmk3, hw4, hmk5]⟩
      | ok fs5 =>
        rcases hloop : c.copyOutputsLoop (c.cachePath ++ [t.hash]) outs fs5 with ⟨r6, fs6, evsL⟩
        cases r6 with
        | error er =>
          obtain ⟨fe, rfl⟩ := copyOutputsLoop_res_io c (c.cachePath ++ [t.hash]) outs fs5
            (by rw [hloop])
          exact Or.inl ⟨fe, by
            simp [Cache.put, Bind.bind, M.bind, removeM, mkdirM, writeFileM, hmk3, hw4,
              hmk5, hloop]⟩
        | ok a =>
          cases a
          cases hw7 : writeF fs6 (c.cachePath ++ [t.hash, "code"]) (intToString cd) with
          | error e7 =>
            exact Or.inl ⟨e7, by
              simp [Cache.put, Bind.bind, M.bind, removeM, mkdirM, writeFileM, hmk3, hw4,
                hmk5, hloop, hw7]⟩
          | ok fs7 =>
            cases hw8 : writeF fs7 (c.cachePath ++ [t.hash ++ ".commit"]) "true" with
            | error e8 =>
              exact Or.inl ⟨e8, by
                simp [Cache.put, Bind.bind, M.bind, removeM, mkdirM, writeFileM, hmk3, hw4,
                  hmk5, hloop, hw7, hw8]⟩
            | ok fs8 =>
              refine Or.inr ⟨fs3, fs4, fs5, fs6, fs7, fs8, evsL, rfl, hw4, hmk5, hloop,
                hw7, hw8, ?_, ?_, ?_⟩
              · cases hrc : c.options.remoteCache with
                | none =>
                  simp [Cache.put, Bind.bind, M.bind, removeM, mkdirM, writeFileM, M.pure,
                    hmk3, hw4, hmk5, hloop, hw7, hw8, hrc]
                | some rc =>
                  cases hst : rc.store t.hash fs8 with
                  | true =>
                    simp [Cache.put, Bind.bind, M.bind, removeM, mkdirM, writeFileM, M.pure,
                      remoteStoreM, hmk3, hw4, hmk5, hloop, hw7, hw8, hrc, hst]
                  | false =>
                    simp [Cache.put, Bind.bind, M.bind, removeM, mkdirM, writeFileM, M.pure,
                      remoteStoreM, hmk3, hw4, hmk5, hloop, hw7, hw8, hrc, hst]
              · cases hrc : c.options.remoteCache with
                | none =>
                  simp [Cache.put, Bind.bind, M.bind, removeM, mkdirM, writeFileM, M.pure,
                    hmk3, hw4, hmk5, hloop, hw7, hw8, hrc]
                | some rc =>
                  cases hst : rc.store t.hash fs8 with
                  | true =>
                    simp [Cache.put, Bind.bind, M.bind, removeM, mkdirM, writeFileM, M.pure,
                      remoteStoreM, hmk3, hw4, hmk5, hloop, hw7, hw8, hrc, hst]
                  | false =>
                    simp [Cache.put, Bind.bind, M.bind, removeM, mkdirM, writeFileM, M.pure,
                      remoteStoreM, hmk3, hw4, hmk5, hloop, hw7, hw8, hrc, hst]
              · cases hrc : c.options.remoteCache with
                | none =>
                  exact Or.inl (by
                    simp [Cache.put, Bind.bind, M.bind, removeM, mkdirM, writeFileM, M.pure,
                      hmk3, hw4, hmk5, hloop, hw7, hw8, hrc])
                | some rc =>
                  cases hst : rc.store t.hash fs8 with
                  | true =>
                    exact Or.inl (by
                      simp [Cache.put, Bind.bind, M.bind, removeM, mkdirM, writeFileM, M.pure,
                        remoteStoreM, hmk3, hw4, hmk5, hloop, hw7, hw8, hrc, hst])
                  | false =>
                    exact Or.inr (by
                      simp [Cache.put, Bind.bind, M.bind, removeM, mkdirM, writeFileM, M.pure,
                        remoteStoreM, hmk3, hw4, hmk5, hloop, hw7, hw8, hrc, hst])

theorem indep_entry (p : List String) {a b : String} (hab : a ≠ b) :
    indep (p ++ [a]) (p ++ [b]) = true :=
  indep_append_ne hab p [] []

/-! ## C2: ordering of the steps of `put` -/

/-- C2: a successful `put` performs its steps in order — remove the old
commit marker and entry directory first, then create and populate the entry
directory (only ensure-directory and copy steps in between), then write the
`code` file, then create the commit marker last, and the remote store (when
configured) is invoked only after the marker write; without a remote store
it is never invoked. -/
theorem claim2 (c : Cache) (t : Task) (tout : Option String) (outs : List String)
    (cd : Int) (fs : FSNode) (hok : (c.put t tout outs cd fs).res = Except.ok ()) :
    ∃ copyEvs, (∀ e ∈ copyEvs, e.isCopyStep = true) ∧
      (c.put t tout outs cd fs).evs =
        [Event.removeEv (c.cachePath ++ [t.hash ++ ".commit"]),
         Event.removeEv (c.cachePath ++ [t.hash]),
         Event.mkdirEv (c.cachePath ++ [t.hash]),
         Event.writeFileEv (c.cachePath ++ [t.hash, "terminalOutput"])
           (tout.getD "no terminal output"),
         Event.mkdirEv (c.cachePath ++ [t.hash, "outputs"])] ++ copyEvs ++
        [Event.writeFileEv (c.cachePath ++ [t.hash, "code"]) (intToString cd),
         Event.writeFileEv (c.cachePath ++ [t.hash ++ ".commit"]) "true"] ++
        (match c.options.remoteCache with
         | some _ => [Event.remoteStoreEv t.hash]
         | none => []) := by
  rcases put_decomp c t tout outs cd fs with ⟨e, he⟩ | ⟨fs3, fs4, fs5, fs6, fs7, fs8, evsL,
    hmk3, hw4, hmk5, hloop, hw7, hw8, hfs, hevs, hres⟩
  · rw [hok] at he
    exact Except.noConfusion he
  · refine ⟨evsL, ?_, hevs⟩
    intro e he2
    have h3 := copyOutputsLoop_evs c (c.cachePath ++ [t.hash]) outs fs5 e
    rw [hloop] at h3
    exact h3 he2

/-- C2 witness: a run with the succeeding remote store and no outputs. -/
theorem claim2_witness :
    ∃ copyEvs, (∀ e ∈ copyEvs, e.isCopyStep = true) ∧
      (cacheRemoteOk.put tH (some "hi") [] 0 fsWork).evs =
        [Event.removeEv (cacheRemoteOk.cachePath ++ [tH.hash ++ ".commit"]),
         Event.removeEv (cacheRemoteOk.cachePath ++ [tH.hash]),
         Event.mkdirEv (cacheRemoteOk.cachePath ++ [tH.hash]),
         Event.writeFileEv (cacheRemoteOk.cachePath ++ [tH.hash, "terminalOutput"])
           ((some "hi").getD "no terminal output"),
         Event.mkdirEv (cacheRemoteOk.cachePath ++ [tH.hash, "outputs"])] ++ copyEvs ++
        [Event.writeFileEv (cacheRemoteOk.cachePath ++ [tH.hash, "code"]) (intToString 0),
         Event.writeFileEv (cacheRemoteOk.cachePath ++ [tH.hash ++ ".commit"]) "true"] ++
        (match cacheRemoteOk.options.remoteCache with
         | some _ => [Event.remoteStoreEv tH.hash]
         | none => []) :=
  claim2 cacheRemoteOk tH (some "hi") [] 0 fsWork rfl

/-- After the local chain of a `put` that reached its commit-marker write,
the local store read finds the committed entry with exactly the written
terminal output and exit code. -/
theorem put_chain_get (c : Cache) (t : Task) (tout : Option String) (outs : List String)
    (cd : Int) {fs3 fs4 fs5 fs6 fs7 fs8 : FSNode} {evsL : List Event}
    (hw4 : writeF fs3 (c.cachePath ++ [t.hash, "terminalOutput"])
      (tout.getD "no terminal output") = Except.ok fs4)
    (hmk5 : mkdirF fs4 (c.cachePath ++ [t.hash, "outputs"]) = Except.ok fs5)
    (hloop : c.copyOutputsLoop (c.cachePath ++ [t.hash]) outs fs5 = ⟨Except.ok (), fs6, evsL⟩)
    (hw7 : writeF fs6 (c.cachePath ++ [t.hash, "code"]) (intToString cd) = Except.ok fs7)
    (hw8 : writeF fs7 (c.cachePath ++ [t.hash ++ ".commit"]) "true" = Except.ok fs8) :
    (c.getFromLocalDir t fs8).res = Except.ok (some
      { terminalOutput := tout.getD "no terminal output",
        outputsPath := c.cachePath ++ [t.hash, "outputs"],
        code := JSNum.num cd }) := by
  have hpath_to : c.cachePath ++ [t.hash, "terminalOutput"] =
      (c.cachePath ++ [t.hash]) ++ ["terminalOutput"] := by simp
  have hpath_out : c.cachePath ++ [t.hash, "outputs"] =
      (c.cachePath ++ [t.hash]) ++ ["outputs"] := by simp
  have hpath_cd : c.cachePath ++ [t.hash, "code"] =
      (c.cachePath ++ [t.hash]) ++ ["code"] := by simp
  have hmark : fs8.lookup (c.cachePath ++ [t.hash ++ ".commit"]) =
      some (FSNode.file "true") := writeF_lookup_self hw8
  have i1 : indep (c.cachePath ++ [t.hash, "terminalOutput"])
      (c.cachePath ++ [t.hash, "outputs"]) = true := by
    rw [hpath_to, hpath_out]
    exact indep_entry _ (by decide)
  have i2 : indep (c.cachePath ++ [t.hash, "terminalOutput"])
      ((c.cachePath ++ [t.hash]) ++ ["outputs"]) = true := by
    rw [← hpath_out]
    exact i1
  have i3 : indep (c.cachePath ++ [t.hash, "terminalOutput"])
      (c.cachePath ++ [t.hash, "code"]) = true := by
    rw [hpath_to, hpath_cd]
    exact indep_entry _ (by decide)
  have i4 : indep (c.cachePath ++ [t.hash, "terminalOutput"])
      (c.cachePath ++ [t.hash ++ ".commit"]) = true :=
    indep_append_ne (hash_ne_hash_commit t.hash) c.cachePath ["terminalOutput"] []
  have i5 : indep (c.cachePath ++ [t.hash, "code"])
      (c.cachePath ++ [t.hash ++ ".commit"]) = true :=
    indep_append_ne (hash_ne_hash_commit t.hash) c.cachePath ["code"] []
  have h4 : fs4.lookup (c.cachePath ++ [t.hash, "terminalOutput"]) =
      some (FSNode.file (tout.getD "no terminal output")) := writeF_lookup_self hw4
  have h5 : fs5.lookup (c.cachePath ++ [t.hash, "terminalOutput"]) =
      some (FSNode.file (tout.getD "no terminal output")) :=
    (mkdirF_frame hmk5 i1).trans h4
  have h6 : fs6.lookup (c.cachePath ++ [t.hash, "terminalOutput"]) =
      some (FSNode.file (tout.getD "no terminal output")) := by
    have h61 := copyOutputsLoop_frame c (c.cachePath ++ [t.hash]) outs i2 fs5
    rw [hloop] at h61
    exact h61.trans h5
  have h7 : fs7.lookup (c.cachePath ++ [t.hash, "terminalOutput"]) =
      some (FSNode.file (tout.getD "no terminal output")) :=
    (writeF_frame hw7 i3).trans h6
  have h8 : fs8.lookup (c.cachePath ++ [t.hash, "terminalOutput"]) =
      some (FSNode.file (tout.getD "no terminal output")) :=
    (writeF_frame hw8 i4).trans h7
  have hcd7 : fs7.lookup (c.cachePath ++ [t.hash, "code"]) =
      some (FSNode.file (intToString cd)) := writeF_lookup_self hw7
  have hcd8 : fs8.lookup (c.cachePath ++ [t.hash, "code"]) =
      some (FSNode.file (intToString cd)) :=
    (writeF_frame hw8 i5).trans hcd7
  rw [getFromLocalDir_run, hmark]
  have hr1 : readF fs8 (c.cachePath ++ [t.hash, "terminalOutput"]) =
      Except.ok (tout.getD "no terminal output") := by
    simp [readF, h8]
  have hr2 : readF fs8 (c.cachePath ++ [t.hash, "code"]) =
      Except.ok (intToString cd) := by
    simp [readF, hcd8]
  rw [hr1, hr2]
  simp [jsStrToNum_intToString]

/-! ## C10: a failed remote mirror does not roll back the local commit -/

/-- C10: when `put` fails because the configured remote store reported a
mirroring failure, the failure is raised to the caller, yet the local entry
is fully committed: a local-store get on the resulting disk returns the
just-written terminal output and exit code. -/
theorem claim10 (c : Cache) (t : Task) (tout : Option String) (outs : List String)
    (cd : Int) (fs : FSNode) (s : String)
    (herr : (c.put t tout outs cd fs).res =
      Except.error (CacheError.remoteStoreFailed s)) :
    (c.getFromLocalDir t ((c.put t tout outs cd fs).fs)).res = Except.ok (some
      { terminalOutput := tout.getD "no terminal output",
        outputsPath := c.cachePath ++ [t.hash, "outputs"],
        code := JSNum.num cd }) := by
  rcases put_decomp c t tout outs cd fs with ⟨e, he⟩ | ⟨fs3, fs4, fs5, fs6, fs7, fs8, evsL,
    hmk3, hw4, hmk5, hloop, hw7, hw8, hfs, hevs, hres⟩
  · rw [herr] at he
    injection he with h2
    exact CacheError.noConfusion h2
  · rw [hfs]
    exact put_chain_get c t tout outs cd hw4 hmk5 hloop hw7 hw8

/-- C10 witness: a put against the always-failing remote store. -/
theorem claim10_witness :
    (cacheRemoteFail.getFromLocalDir tH
        ((cacheRemoteFail.put tH (some "hi") ["out.txt"] 0 fsWork).fs)).res =
      Except.ok (some
        { terminalOutput := (some "hi").getD "no terminal output",
          outputsPath := cacheRemoteFail.cachePath ++ [tH.hash, "outputs"],
          code := JSNum.num 0 }) :=
  claim10 cacheRemoteFail tH (some "hi") ["out.txt"] 0 fsWork tH.hash rfl

theorem ensureDirF_not_file {fs fsa : FSNode} {w : List String}
    (h : ensureDirF fs w = Except.ok fsa) {cnt : String} :
    fs.lookup w ≠ some (FSNode.file cnt) := by
  induction w generalizing fs fsa with
  | nil =>
    intro hl
    simp only [FSNode.lookup] at hl
    injection hl with hl
    subst hl
    simp [ensureDirF] at h
  | cons k rest ih =>
    intro hl
    cases fs with
    | file c => simp [FSNode.lookup] at hl
    | dir es =>
      simp only [FSNode.lookup] at hl
      cases hfind : findEntry k es with
      | none => rw [hfind] at hl; exact Option.noConfusion hl
      | some child =>
        rw [hfind] at hl
        simp only [ensureDirF, hfind] at h
        cases hens : ensureDirF child rest with
        | error e => rw [hens] at h; exact Except.noConfusion h
        | ok childa => exact ih hens hl

/-- An `ensureDir` whose target is not an ancestor of `x` leaves the node at
`x` unchanged. -/
theorem ensureDirF_preserve_some {fs fsa : FSNode} {w x : List String} {n : FSNode}
    (h : ensureDirF fs w = Except.ok fsa) (hx : fs.lookup x = some n)
    (hwx : under w x = false) : fsa.lookup x = some n := by
  cases hxw : under x w with
  | true =>
    obtain ⟨s2, rfl⟩ := under_iff_exists.mp hxw
    cases s2 with
    | nil =>
      have hx2 : fs.lookup w = some n := by simpa using hx
      cases n with
      | dir es =>
        rw [ensureDirF_of_lookup_dir hx2] at h
        injection h with h
        subst h
        exact hx
      | file cnt => exact absurd hx2 (ensureDirF_not_file h)
    | cons k2 s2b =>
      obtain ⟨es, hes⟩ := lookup_some_ancestor hx
      rw [ensureDirF_of_lookup_dir hes] at h
      injection h with h
      subst h
      exact hx
  | false =>
    exact (ensureDirF_frame h (indep_of_parts hxw hwx)).trans hx

/-- One copy-loop iteration preserves an `outputs/` subtree that is an
exact copy of the corresponding (unchanged) workspace subtree: whatever the
relation between the two output paths, re-copying writes back identical
content. -/
theorem copyOutputStep_keeps_exact (c : Cache) (td : List String) (g : String)
    {fs fs2 : FSNode} {evs2 : List Event} (fs0 : FSNode) (pf : List String) (n : FSNode)
    (hstep : c.copyOutputStep td g fs = ⟨Except.ok (), fs2, evs2⟩)
    (hg : fs.lookup (c.root ++ splitPath g) = fs0.lookup (c.root ++ splitPath g))
    (hf0 : fs0.lookup (c.root ++ pf) = some n)
    (hx : fs.lookup ((td ++ ["outputs"]) ++ pf) = some n) :
    fs2.lookup ((td ++ ["outputs"]) ++ pf) = some n := by
  have hrun := (copyOutputStep_run c td g fs).symm.trans hstep
  cases hsrc : fs.lookup (c.root ++ splitPath g) with
  | none =>
    simp only [hsrc, MOut.mk.injEq] at hrun
    obtain ⟨-, h2, -⟩ := hrun
    rw [← h2]
    exact hx
  | some v =>
    simp only [hsrc] at hrun
    have hg0 : fs0.lookup (c.root ++ splitPath g) = some v := by rw [← hg, hsrc]
    have hdst : td ++ "outputs" :: splitPath g = (td ++ ["outputs"]) ++ splitPath g := by
      simp
    cases hpgpf : under (splitPath g) pf with
    | true =>
      obtain ⟨s, hs⟩ := under_iff_exists.mp hpgpf
      have hns : FSNode.lookup n s = some v := by
        have h1 := hg0
        rw [hs, ← List.append_assoc, lookup_append, hf0] at h1
        simpa using h1
      have hkey : fs.lookup ((td ++ ["outputs"]) ++ splitPath g) = some v := by
        rw [hs, ← List.append_assoc, lookup_append, hx]
        simpa using hns
      cases v with
      | file cnt =>
        simp only [isFileB] at hrun
        rw [if_true] at hrun
        have hsplit : (td ++ ["outputs"]) ++ splitPath g =
            ((td ++ ["outputs"]) ++ (splitPath g).dropLast) ++
              ((splitPath g).getLast (splitPath_ne_nil g) :: []) := by
          conv_lhs => rw [← List.dropLast_append_getLast (splitPath_ne_nil g)]
          simp
        have hanc : ∃ es, fs.lookup ((td ++ ["outputs"]) ++ (splitPath g).dropLast) =
            some (FSNode.dir es) := by
          have h1 := hkey
          rw [hsplit] at h1
          exact lookup_some_ancestor h1
        obtain ⟨es, hes⟩ := hanc
        have hdirform : td ++ ("outputs" :: splitPath g).dropLast =
            (td ++ ["outputs"]) ++ (splitPath g).dropLast := by
          rw [List.dropLast_cons_of_ne_nil (splitPath_ne_nil g)]
          simp
        simp only [hdirform, hdst] at hrun
        rw [ensureDirF_of_lookup_dir hes] at hrun
        simp only [hsrc] at hrun
        rw [putAt_of_lookup hkey] at hrun
        simp only [MOut.mk.injEq] at hrun
        obtain ⟨-, h2, -⟩ := hrun
        rw [← h2]
        exact hx
      | dir es0 =>
        simp only [isFileB] at hrun
        rw [if_neg Bool.false_ne_true] at hrun
        simp only [hdst] at hrun
        rw [ensureDirF_of_lookup_dir hkey] at hrun
        simp only [hsrc] at hrun
        rw [putAt_of_lookup hkey] at hrun
        simp only [MOut.mk.injEq] at hrun
        obtain ⟨-, h2, -⟩ := hrun
        rw [← h2]
        exact hx
    | false =>
      cases hpfpg : under pf (splitPath g) with
      | true =>
        obtain ⟨s, hs⟩ := under_iff_exists.mp hpfpg
        have hsne : s ≠ [] := by
          intro h0
          subst h0
          rw [List.append_nil] at hs
          rw [hs, under_refl] at hpgpf
          exact Bool.noConfusion hpgpf
        obtain ⟨k, s2, rfl⟩ : ∃ k s2, s = k :: s2 := by
          cases s with
          | nil => exact absurd rfl hsne
          | cons a b => exact ⟨a, b, rfl⟩
        have hvs : FSNode.lookup v (k :: s2) = some n := by
          have h1 := hf0
          rw [hs, ← List.append_assoc, lookup_append, hg0] at h1
          simpa using h1
        have hxs : (td ++ ["outputs"]) ++ pf =
            ((td ++ ["outputs"]) ++ splitPath g) ++ (k :: s2) := by
          rw [hs]
          simp
        have hanc : ∃ es, fs.lookup ((td ++ ["outputs"]) ++ splitPath g) =
            some (FSNode.dir es) := by
          have h1 := hx
          rw [hxs] at h1
          exact lookup_some_ancestor h1
        obtain ⟨es1, hes1⟩ := hanc
        cases v with
        | file cnt => simp [FSNode.lookup] at hvs
        | dir es0 =>
          simp only [isFileB] at hrun
          rw [if_neg Bool.false_ne_true] at hrun
          simp only [hdst] at hrun
          rw [ensureDirF_of_lookup_dir hes1] at hrun
          simp only [hsrc] at hrun
          cases hput : putAt fs ((td ++ ["outputs"]) ++ splitPath g) (FSNode.dir es0) with
          | error e =>
            rw [hput] at hrun
            simp at hrun
          | ok fs3 =>
            rw [hput] at hrun
            simp only [MOut.mk.injEq] at hrun
            obtain ⟨-, h2, -⟩ := hrun
            rw [← h2]
            rw [hxs, putAt_lookup_deep hput]
            exact hvs
      | false =>
        have hindep : indep pf (splitPath g) = true := indep_of_parts hpfpg hpgpf
        have hxdst : indep ((td ++ ["outputs"]) ++ pf)
            ((td ++ ["outputs"]) ++ splitPath g) = true := by
          rw [indep_append_left]
          exact hindep
        cases v with
        | file cnt =>
          simp only [isFileB] at hrun
          rw [if_true] at hrun
          have hdirform : td ++ ("outputs" :: splitPath g).dropLast =
              (td ++ ["outputs"]) ++ (splitPath g).dropLast := by
            rw [List.dropLast_cons_of_ne_nil (splitPath_ne_nil g)]
            simp
          simp only [hdirform, hdst] at hrun
          have hdux : under ((td ++ ["outputs"]) ++ (splitPath g).dropLast)
              ((td ++ ["outputs"]) ++ pf) = false := by
            cases hcc : under ((td ++ ["outputs"]) ++ (splitPath g).dropLast)
                ((td ++ ["outputs"]) ++ pf) with
            | false => rfl
            | true =>
              rw [under_append_left] at hcc
              have h1 : under (splitPath g) pf = true :=
                under_trans hcc (under_dropLast (splitPath g))
              rw [h1] at hpgpf
              exact Bool.noConfusion hpgpf
          cases hens : ensureDirF fs ((td ++ ["outputs"]) ++ (splitPath g).dropLast) with
          | error e =>
            simp only [hens] at hrun
            simp at hrun
          | ok fsa =>
            simp only [hens] at hrun
            have hxa : fsa.lookup ((td ++ ["outputs"]) ++ pf) = some n :=
              ensureDirF_preserve_some hens hx hdux
            cases hsrc2 : fsa.lookup (c.root ++ splitPath g) with
            | none =>
              simp only [hsrc2] at hrun
              simp at hrun
            | some v2 =>
              simp only [hsrc2] at hrun
              cases hput : putAt fsa ((td ++ ["outputs"]) ++ splitPath g) v2 with
              | error e =>
                rw [hput] at hrun
                simp at hrun
              | ok fs3 =>
                rw [hput] at hrun
                simp only [MOut.mk.injEq] at hrun
                obtain ⟨-, h2, -⟩ := hrun
                rw [← h2]
                exact (putAt_frame hput hxdst).trans hxa
        | dir es0 =>
          simp only [isFileB] at hrun
          rw [if_neg Bool.false_ne_true] at hrun
          simp only [hdst] at hrun
          have hdux : under ((td ++ ["outputs"]) ++ splitPath g)
              ((td ++ ["outputs"]) ++ pf) = false := by
            cases hcc : under ((td ++ ["outputs"]) ++ splitPath g)
                ((td ++ ["outputs"]) ++ pf) with
            | false => rfl
            | true =>
              rw [under_append_left] at hcc
              rw [hcc] at hpgpf
              exact Bool.noConfusion hpgpf
          cases hens : ensureDirF fs ((td ++ ["outputs"]) ++ splitPath g) with
          | error e =>
            simp only [hens] at hrun
            simp at hrun
          | ok fsa =>
            simp only [hens] at hrun
            have hxa : fsa.lookup ((td ++ ["outputs"]) ++ pf) = some n :=
              ensureDirF_preserve_some hens hx hdux
            cases hsrc2 : fsa.lookup (c.root ++ splitPath g) with
            | none =>
              simp only [hsrc2] at hrun
              simp at hrun
            | some v2 =>
              simp only [hsrc2] at hrun
              cases hput : putAt fsa ((td ++ ["outputs"]) ++ splitPath g) v2 with
              | error e =>
                rw [hput] at hrun
                simp at hrun
              | ok fs3 =>
                rw [hput] at hrun
                simp only [MOut.mk.injEq] at hrun
                obtain ⟨-, h2, -⟩ := hrun
                rw [← h2]
                exact (putAt_frame hput hxdst).trans hxa

/-- A whole copy loop preserves an exact copied subtree, as long as the
workspace region it reads is unchanged relative to the reference disk. -/
theorem copyOutputsLoop_keeps_exact (c : Cache) (td : List String) (fs0 : FSNode)
    (pf : List String) (n : FSNode) (hf0 : fs0.lookup (c.root ++ pf) = some n) :
    ∀ (l : List String) (fs fs1 : FSNode) (evsL : List Event),
      c.copyOutputsLoop td l fs = ⟨Except.ok (), fs1, evsL⟩ →
      (∀ g ∈ l, indep (c.root ++ splitPath g) td = true) →
      (∀ g ∈ l, fs.lookup (c.root ++ splitPath g) = fs0.lookup (c.root ++ splitPath g)) →
      fs.lookup ((td ++ ["outputs"]) ++ pf) = some n →
      fs1.lookup ((td ++ ["outputs"]) ++ pf) = some n := by
  intro l
  induction l with
  | nil =>
    intro fs fs1 evsL h _ _ hx
    have h2 : fs = fs1 := by
      simp only [Cache.copyOutputsLoop, M.pure, MOut.mk.injEq] at h
      exact h.2.1
    rw [← h2]
    exact hx
  | cons g rest ih =>
    intro fs fs1 evsL h hind hpr hx
    rw [loop_cons_eq] at h
    rcases hstep : c.copyOutputStep td g fs with ⟨r2, fs2, evs2⟩
    cases r2 with
    | error e =>
      rw [run_bind_error _ hstep] at h
      simp at h
    | ok a =>
      cases a
      rw [run_bind_ok _ hstep] at h
      rcases hrest : c.copyOutputsLoop td rest fs2 with ⟨r3, fs3, evs3⟩
      rw [hrest] at h
      simp only [MOut.mk.injEq] at h
      obtain ⟨h1, h2, h3⟩ := h
      have hstepfr : ∀ q, indep q (td ++ ["outputs"]) = true →
          fs2.lookup q = fs.lookup q := by
        intro q hq
        have h4 := copyOutputStep_frame c td g fs hq
        rw [hstep] at h4
        exact h4
      have hOtd : under (td ++ ["outputs"]) td = true := under_append td ["outputs"]
      have hpr2 : ∀ g2 ∈ rest, fs2.lookup (c.root ++ splitPath g2) =
          fs0.lookup (c.root ++ splitPath g2) := by
        intro g2 hg2
        have hi : indep (c.root ++ splitPath g2) (td ++ ["outputs"]) = true :=
          indep_extend hOtd (hind g2 (List.mem_cons_of_mem g hg2))
        rw [hstepfr _ hi]
        exact hpr g2 (List.mem_cons_of_mem g hg2)
      have hx2 : fs2.lookup ((td ++ ["outputs"]) ++ pf) = some n :=
        copyOutputStep_keeps_exact c td g fs0 pf n hstep
          (hpr g (List.mem_cons_self g rest)) hf0 hx
      have h5 := ih fs2 fs3 evs3 (by rw [hrest, h1])
        (fun g2 hg2 => hind g2 (List.mem_cons_of_mem g hg2)) hpr2 hx2
      rw [← h2]
      exact h5

/-- A successful copy step on an output that exists in the workspace leaves
an exact copy of it under `outputs/`. -/
theorem copyOutputStep_writes_target (c : Cache) (td : List String) (g : String)
    {fs fs2 : FSNode} {evs2 : List Event} {n : FSNode}
    (hstep : c.copyOutputStep td g fs = ⟨Except.ok (), fs2, evs2⟩)
    (hind : indep (c.root ++ splitPath g) td = true)
    (hsrc : fs.lookup (c.root ++ splitPath g) = some n) :
    fs2.lookup ((td ++ ["outputs"]) ++ splitPath g) = some n := by
  have hrun := (copyOutputStep_run c td g fs).symm.trans hstep
  simp only [hsrc] at hrun
  have hOtd : under (td ++ ["outputs"]) td = true := under_append td ["outputs"]
  have hcund : under (td ++ "outputs" :: splitPath g) td = true := by
    have h1 : td ++ "outputs" :: splitPath g = (td ++ ["outputs"]) ++ splitPath g := by simp
    rw [h1]
    exact under_trans hOtd (under_append _ _)
  have hdirund : under (td ++ ("outputs" :: splitPath g).dropLast) td = true := by
    rw [List.dropLast_cons_of_ne_nil (splitPath_ne_nil g)]
    have h1 : td ++ "outputs" :: (splitPath g).dropLast =
        (td ++ ["outputs"]) ++ (splitPath g).dropLast := by simp
    rw [h1]
    exact under_trans hOtd (under_append _ _)
  have hform : (td ++ ["outputs"]) ++ splitPath g = td ++ "outputs" :: splitPath g := by simp
  cases n with
  | file cnt =>
    simp only [isFileB] at hrun
    rw [if_true] at hrun
    cases hens : ensureDirF fs (td ++ ("outputs" :: splitPath g).dropLast) with
    | error e =>
      simp only [hens] at hrun
      simp at hrun
    | ok fsa =>
      simp only [hens] at hrun
      have hv2 : fsa.lookup (c.root ++ splitPath g) = some (FSNode.file cnt) := by
        rw [ensureDirF_frame hens (indep_extend hdirund hind)]
        exact hsrc
      simp only [hv2] at hrun
      cases hput : putAt fsa (td ++ "outputs" :: splitPath g) (FSNode.file cnt) with
      | error e =>
        rw [hput] at hrun
        simp at hrun
      | ok fs3 =>
        rw [hput] at hrun
        simp only [MOut.mk.injEq] at hrun
        obtain ⟨-, h2, -⟩ := hrun
        rw [← h2, hform]
        have h3 := putAt_lookup_deep hput []
        rw [List.append_nil] at h3
        simpa using h3
  | dir es0 =>
    simp only [isFileB] at hrun
    rw [if_neg Bool.false_ne_true] at hrun
    cases hens : ensureDirF fs (td ++ "outputs" :: splitPath g) with
    | error e =>
      simp only [hens] at hrun
      simp at hrun
    | ok fsa =>
      simp only [hens] at hrun
      have hv2 : fsa.lookup (c.root ++ splitPath g) = some (FSNode.dir es0) := by
        rw [ensureDirF_frame hens (indep_extend hcund hind)]
        exact hsrc
      simp only [hv2] at hrun
      cases hput : putAt fsa (td ++ "outputs" :: splitPath g) (FSNode.dir es0) with
      | error e =>
        rw [hput] at hrun
        simp at hrun
      | ok fs3 =>
        rw [hput] at hrun
        simp only [MOut.mk.injEq] at hrun
        obtain ⟨-, h2, -⟩ := hrun
        rw [← h2, hform]
        have h3 := putAt_lookup_deep hput []
        rw [List.append_nil] at h3
        simpa using h3

/-- A successful copy loop leaves, for every processed output that exists in
the (reference) workspace, an exact copy under `outputs/`. -/
theorem copyOutputsLoop_restores (c : Cache) (td : List String) (fs0 : FSNode) :
    ∀ (l : List String) (fs fs1 : FSNode) (evsL : List Event),
      c.copyOutputsLoop td l fs = ⟨Except.ok (), fs1, evsL⟩ →
      (∀ g ∈ l, indep (c.root ++ splitPath g) td = true) →
      (∀ g ∈ l, fs.lookup (c.root ++ splitPath g) = fs0.lookup (c.root ++ splitPath g)) →
      ∀ f ∈ l, ∀ n, fs0.lookup (c.root ++ splitPath f) = some n →
        fs1.lookup ((td ++ ["outputs"]) ++ splitPath f) = some n := by
  intro l
  induction l with
  | nil =>
    intro fs fs1 evsL h hind hpr f hf
    exact absurd hf (List.not_mem_nil f)
  | cons g rest ih =>
    intro fs fs1 evsL h hind hpr f hf n hn
    rw [loop_cons_eq] at h
    rcases hstep : c.copyOutputStep td g fs with ⟨r2, fs2, evs2⟩
    cases r2 with
    | error e =>
      rw [run_bind_error _ hstep] at h
      simp at h
    | ok a =>
      cases a
      rw [run_bind_ok _ hstep] at h
      rcases hrest : c.copyOutputsLoop td rest fs2 with ⟨r3, fs3, evs3⟩
      rw [hrest] at h
      simp only [MOut.mk.injEq] at h
      obtain ⟨h1, h2, h3⟩ := h
      have hstepfr : ∀ q, indep q (td ++ ["outputs"]) = true →
          fs2.lookup q = fs.lookup q := by
        intro q hq
        have h4 := copyOutputStep_frame c td g fs hq
        rw [hstep] at h4
        exact h4
      have hOtd : under (td ++ ["outputs"]) td = true := under_append td ["outputs"]
      have hpr2 : ∀ g2 ∈ rest, fs2.lookup (c.root ++ splitPath g2) =
          fs0.lookup (c.root ++ splitPath g2) := by
        intro g2 hg2
        have hi : indep (c.root ++ splitPath g2) (td ++ ["outputs"]) = true :=
          indep_extend hOtd (hind g2 (List.mem_cons_of_mem g hg2))
        rw [hstepfr _ hi]
        exact hpr g2 (List.mem_cons_of_mem g hg2)
      rcases List.mem_cons.mp hf with rfl | hf2
      · have hsrcf : fs.lookup (c.root ++ splitPath f) = some n := by
          rw [hpr f (List.mem_cons_self f rest)]
          exact hn
        have hx2 : fs2.lookup ((td ++ ["outputs"]) ++ splitPath f) = some n :=
          copyOutputStep_writes_target c td f hstep
            (hind f (List.mem_cons_self f rest)) hsrcf
        have h5 := copyOutputsLoop_keeps_exact c td fs0 (splitPath f) n hn rest fs2 fs3 evs3
          (by rw [hrest, h1]) (fun g2 hg2 => hind g2 (List.mem_cons_of_mem f hg2)) hpr2 hx2
        rw [← h2]
        exact h5
      · have h5 := ih fs2 fs3 evs3 (by rw [hrest, h1])
          (fun g2 hg2 => hind g2 (List.mem_cons_of_mem g hg2)) hpr2 f hf2 n hn
        rw [← h2]
        exact h5

/-- When the local store hits, `get` returns that hit unchanged (no remote
involvement). -/
theorem get_of_hit (c : Cache) (t : Task) (fs : FSNode) (cr : CachedResult)
    (h : (c.getFromLocalDir t fs).res = Except.ok (some cr)) :
    (c.get t fs).res = Except.ok (some cr) := by
  have hget : c.get t = c.getFromLocalDir t >>= fun res =>
      match res, c.options.remoteCache with
      | none, some rc => remoteRetrieveM rc t.hash >>= fun _ => c.getFromLocalDir t
      | _, _ => M.pure res := rfl
  rcases hg : c.getFromLocalDir t fs with ⟨r, fs1, e1⟩
  have hr : r = Except.ok (some cr) := by
    rw [hg] at h
    exact h
  subst hr
  rw [hget, run_bind_ok _ hg]
  simp [M.pure]

/-- C3: for every hash, terminal-output text and exit code, a successful
`put` followed by `get` on the resulting disk (no intervening writes, with
the workspace disjoint from the cache directory) returns a record with the
written terminal output and code, and every declared output that existed in
the workspace at put time sits under the returned `outputsPath` as an exact
copy of the workspace original. -/
theorem claim3 (c : Cache) (t : Task) (tout : String) (outs : List String) (cd : Int)
    (fs : FSNode)
    (hok : (c.put t (some tout) outs cd fs).res = Except.ok ())
    (hroot : indep c.root c.cachePath = true) :
    (c.get t ((c.put t (some tout) outs cd fs).fs)).res = Except.ok (some
      { terminalOutput := tout,
        outputsPath := c.cachePath ++ [t.hash, "outputs"],
        code := JSNum.num cd }) ∧
    ∀ f ∈ outs, ∀ n, fs.lookup (c.root ++ splitPath f) = some n →
      ((c.put t (some tout) outs cd fs).fs).lookup
        ((c.cachePath ++ [t.hash, "outputs"]) ++ splitPath f) = some n := by
  rcases put_decomp c t (some tout) outs cd fs with ⟨e, he⟩ | hchain
  · rw [hok] at he
    exact Except.noConfusion he
  obtain ⟨fs3, fs4, fs5, fs6, fs7, fs8, evsL, hmk3, hw4, hmk5, hloop, hw7, hw8, hfs, hevs,
    hres⟩ := hchain
  have hsep : ∀ f : String,
      indep (c.root ++ splitPath f) (c.cachePath ++ [t.hash]) = true ∧
      indep (c.root ++ splitPath f) (c.cachePath ++ [t.hash ++ ".commit"]) = true := by
    intro f
    have h1 : indep (c.root ++ splitPath f) c.cachePath = true := by
      rw [indep_symm]
      exact indep_extend (under_append c.root (splitPath f))
        (by rw [indep_symm]; exact hroot)
    exact ⟨indep_extend (under_append c.cachePath [t.hash]) h1,
           indep_extend (under_append c.cachePath [t.hash ++ ".commit"]) h1⟩
  have hpr5 : ∀ g : String,
      fs5.lookup (c.root ++ splitPath g) = fs.lookup (c.root ++ splitPath g) := by
    intro g
    obtain ⟨hgtd, hgcm⟩ := hsep g
    have hto : indep (c.root ++ splitPath g)
        (c.cachePath ++ [t.hash, "terminalOutput"]) = true := by
      have hform : c.cachePath ++ [t.hash, "terminalOutput"] =
          (c.cachePath ++ [t.hash]) ++ ["terminalOutput"] := by simp
      rw [hform]
      exact indep_extend (under_append _ _) hgtd
    have hout : indep (c.root ++ splitPath g)
        (c.cachePath ++ [t.hash, "outputs"]) = true := by
      have hform : c.cachePath ++ [t.hash, "outputs"] =
          (c.cachePath ++ [t.hash]) ++ ["outputs"] := by simp
      rw [hform]
      exact indep_extend (under_append _ _) hgtd
    calc fs5.lookup (c.root ++ splitPath g)
        = fs4.lookup (c.root ++ splitPath g) := mkdirF_frame hmk5 hout
      _ = fs3.lookup (c.root ++ splitPath g) := writeF_frame hw4 hto
      _ = (removeF (removeF fs (c.cachePath ++ [t.hash ++ ".commit"]))
            (c.cachePath ++ [t.hash])).lookup (c.root ++ splitPath g) :=
          mkdirF_frame hmk3 hgtd
      _ = (removeF fs (c.cachePath ++ [t.hash ++ ".commit"])).lookup
            (c.root ++ splitPath g) := removeF_frame _ hgtd
      _ = fs.lookup (c.root ++ splitPath g) := removeF_frame _ hgcm
  constructor
  · rw [hfs]
    exact get_of_hit c t fs8 _ (put_chain_get c t (some tout) outs cd hw4 hmk5 hloop hw7 hw8)
  · intro f hf nn hn
    rw [hfs]
    have hres6 := copyOutputsLoop_restores c (c.cachePath ++ [t.hash]) fs outs fs5 fs6
      evsL hloop (fun g _ => (hsep g).1) (fun g _ => hpr5 g) f hf nn hn
    have hxeq2 : (c.cachePath ++ [t.hash, "outputs"]) ++ splitPath f =
        (c.cachePath ++ [t.hash]) ++ "outputs" :: splitPath f := by simp
    have hcd : indep ((c.cachePath ++ [t.hash]) ++ "outputs" :: splitPath f)
        (c.cachePath ++ [t.hash, "code"]) = true := by
      rw [show c.cachePath ++ [t.hash, "code"] = (c.cachePath ++ [t.hash]) ++ ["code"]
        from by simp]
      exact indep_append_ne (by decide) (c.cachePath ++ [t.hash]) (splitPath f) []
    have hcm : indep ((c.cachePath ++ [t.hash]) ++ "outputs" :: splitPath f)
        (c.cachePath ++ [t.hash ++ ".commit"]) = true := by
      rw [show (c.cachePath ++ [t.hash]) ++ "outputs" :: splitPath f =
          c.cachePath ++ t.hash :: "outputs" :: splitPath f from by simp]
      exact indep_append_ne (hash_ne_hash_commit t.hash) c.cachePath
        ("outputs" :: splitPath f) []
    have hres6b : fs6.lookup ((c.cachePath ++ [t.hash]) ++ "outputs" :: splitPath f) =
        some nn := by
      rw [show (c.cachePath ++ [t.hash]) ++ "outputs" :: splitPath f =
          ((c.cachePath ++ [t.hash]) ++ ["outputs"]) ++ splitPath f from by simp]
      exact hres6
    rw [hxeq2]
    calc fs8.lookup ((c.cachePath ++ [t.hash]) ++ "outputs" :: splitPath f)
        = fs7.lookup ((c.cachePath ++ [t.hash]) ++ "outputs" :: splitPath f) :=
          writeF_frame hw8 hcm
      _ = fs6.lookup ((c.cachePath ++ [t.hash]) ++ "outputs" :: splitPath f) :=
          writeF_frame hw7 hcd
      _ = some nn := hres6b

/-- C3 witness: put of "hello", exit code 0 and the single file output
"out.txt" with content "A", then get on the resulting disk. -/
theorem claim3_witness :
    (cacheNoRemote.get tH
        ((cacheNoRemote.put tH (some "hello") ["out.txt"] 0 fsWork).fs)).res =
      Except.ok (some
        { terminalOutput := "hello",
          outputsPath := cacheNoRemote.cachePath ++ [tH.hash, "outputs"],
          code := JSNum.num 0 }) ∧
    ((cacheNoRemote.put tH (some "hello") ["out.txt"] 0 fsWork).fs).lookup
        ((cacheNoRemote.cachePath ++ [tH.hash, "outputs"]) ++ splitPath "out.txt") =
      some (FSNode.file "A") :=
  ⟨(claim3 cacheNoRemote tH "hello" ["out.txt"] 0 fsWork rfl rfl).1,
   (claim3 cacheNoRemote tH "hello" ["out.txt"] 0 fsWork rfl rfl).2 "out.txt"
     (List.mem_singleton.mpr rfl) (FSNode.file "A") rfl⟩

/-! ## C8: a missing declared output is skipped outright -/

/-- One copy-loop iteration on an output absent from the workspace is a
no-op: no error, no disk change, no trace. -/
theorem copyOutputStep_skip (c : Cache) (td : List String) (f : String) (fs : FSNode)
    (h : fs.lookup (c.root ++ splitPath f) = none) :
    c.copyOutputStep td f fs = ⟨Except.ok (), fs, []⟩ := by
  rw [copyOutputStep_run, h]

/-- Under `indep` of the copy-loop region from the workspace, the whole copy
loop is unchanged by dropping an output that is absent from the workspace. -/
theorem copyOutputsLoop_filter (c : Cache) (td : List String) (f0 : String)
    (hind : indep (c.root ++ splitPath f0) (td ++ ["outputs"]) = true) :
    ∀ (l : List String) (fs : FSNode),
      fs.lookup (c.root ++ splitPath f0) = none →
      c.copyOutputsLoop td l fs =
        c.copyOutputsLoop td (l.filter (fun g => g != f0)) fs := by
  intro l
  induction l with
  | nil => intro fs _; rfl
  | cons g rest ih =>
    intro fs hmiss
    by_cases hg : g = f0
    · subst hg
      have hfil : List.filter (fun g2 => g2 != g) (g :: rest) =
          List.filter (fun g2 => g2 != g) rest := by
        simp [List.filter]
      rw [hfil, loop_cons_eq, run_bind_ok _ (copyOutputStep_skip c td g fs hmiss),
        ← ih fs hmiss]
      rcases h2 : c.copyOutputsLoop td rest fs with ⟨r, f2, e2⟩
      simp
    · have hfil : List.filter (fun g2 => g2 != f0) (g :: rest) =
          g :: List.filter (fun g2 => g2 != f0) rest := by
        have hb : (g != f0) = true := by simp [hg]
        simp [List.filter, hb]
      rw [hfil, loop_cons_eq, loop_cons_eq]
      rcases hstep : c.copyOutputStep td g fs with ⟨r2, fs2, evs2⟩
      cases r2 with
      | error e =>
        rw [run_bind_error _ hstep, run_bind_error _ hstep]
      | ok a =>
        cases a
        rw [run_bind_ok _ hstep, run_bind_ok _ hstep]
        have h4 := copyOutputStep_frame c td g fs hind
        rw [hstep] at h4
        have h5 : fs2.lookup (c.root ++ splitPath f0) =
            fs.lookup (c.root ++ splitPath f0) := h4
        have hmiss2 : fs2.lookup (c.root ++ splitPath f0) = none := by
          rw [h5]
          exact hmiss
        rw [ih fs2 hmiss2]

/-- Copying an output whose path does not extend below the absent path `f0`
cannot make anything appear at `f0`'s slot under `outputs/`, given that
`f0`'s workspace subtree is absent. -/
theorem putAt_keep_absent (c : Cache) (td : List String) (g f0 : String)
    {fs2 fs3 v2 : FSNode}
    (hput : putAt fs2 (td ++ "outputs" :: splitPath g) v2 = Except.ok fs3)
    (hsrc2 : fs2.lookup (c.root ++ splitPath g) = some v2)
    (hnug : under (splitPath g) (splitPath f0) = false)
    (hfs2x : fs2.lookup (td ++ "outputs" :: splitPath f0) = none)
    (hfs2m : fs2.lookup (c.root ++ splitPath f0) = none) :
    fs3.lookup (td ++ "outputs" :: splitPath f0) = none := by
  cases hu1 : under (splitPath f0) (splitPath g) with
  | true =>
    obtain ⟨s, hs⟩ := under_iff_exists.mp hu1
    have hxeq : td ++ "outputs" :: splitPath f0 =
        (td ++ "outputs" :: splitPath g) ++ s := by
      rw [hs]
      simp
    rw [hxeq, putAt_lookup_deep hput s]
    have h5 : fs2.lookup ((c.root ++ splitPath g) ++ s) = none := by
      rw [show (c.root ++ splitPath g) ++ s = c.root ++ splitPath f0 from by rw [hs]; simp]
      exact hfs2m
    rw [lookup_append, hsrc2] at h5
    simpa using h5
  | false =>
    have hi : indep (td ++ "outputs" :: splitPath f0)
        (td ++ "outputs" :: splitPath g) = true := by
      have h1 : td ++ "outputs" :: splitPath f0 =
          (td ++ ["outputs"]) ++ splitPath f0 := by simp
      have h2 : td ++ "outputs" :: splitPath g =
          (td ++ ["outputs"]) ++ splitPath g := by simp
      rw [h1, h2, indep_append_left]
      exact indep_of_parts hu1 hnug
    rw [putAt_frame hput hi]
    exact hfs2x

/-- One copy-loop iteration keeps the absent path's slot under `outputs/`
empty: the iterated output either is the absent one itself (then it is
skipped) or does not extend below the absent path. -/
theorem copyOutputStep_keep_absent (c : Cache) (td : List String) (g f0 : String)
    (fs : FSNode)
    (hind : indep (c.root ++ splitPath f0) (td ++ ["outputs"]) = true)
    (hmiss : fs.lookup (c.root ++ splitPath f0) = none)
    (hnu : fs.lookup (c.root ++ splitPath g) = none ∨
      under (splitPath g) (splitPath f0) = false)
    (hx : fs.lookup (td ++ "outputs" :: splitPath f0) = none) :
    ((c.copyOutputStep td g fs).fs).lookup (td ++ "outputs" :: splitPath f0) = none := by
  have hc : under (td ++ "outputs" :: splitPath g) (td ++ ["outputs"]) = true := by
    have h1 : td ++ "outputs" :: splitPath g = (td ++ ["outputs"]) ++ splitPath g := by simp
    rw [h1]
    exact under_append _ _
  have hdir : under (td ++ ("outputs" :: splitPath g).dropLast)
      (td ++ ["outputs"]) = true := by
    rw [List.dropLast_cons_of_ne_nil (splitPath_ne_nil g)]
    have h1 : td ++ "outputs" :: (splitPath g).dropLast =
        (td ++ ["outputs"]) ++ (splitPath g).dropLast := by simp
    rw [h1]
    exact under_append _ _
  rw [copyOutputStep_run]
  cases hsrc : fs.lookup (c.root ++ splitPath g) with
  | none => exact hx
  | some v =>
    have hnug : under (splitPath g) (splitPath f0) = false := by
      rcases hnu with h | h
      · rw [hsrc] at h
        exact Option.noConfusion h
      · exact h
    have hDc : under (td ++ "outputs" :: splitPath g)
        (td ++ "outputs" :: splitPath f0) = false := by
      have h1 : td ++ "outputs" :: splitPath g = (td ++ ["outputs"]) ++ splitPath g := by simp
      have h2 : td ++ "outputs" :: splitPath f0 =
          (td ++ ["outputs"]) ++ splitPath f0 := by simp
      rw [h1, h2, under_append_left]
      exact hnug
    have hDd : under (td ++ ("outputs" :: splitPath g).dropLast)
        (td ++ "outputs" :: splitPath f0) = false := by
      rw [List.dropLast_cons_of_ne_nil (splitPath_ne_nil g)]
      have h1 : td ++ "outputs" :: (splitPath g).dropLast =
          (td ++ ["outputs"]) ++ (splitPath g).dropLast := by simp
      have h2 : td ++ "outputs" :: splitPath f0 =
          (td ++ ["outputs"]) ++ splitPath f0 := by simp
      rw [h1, h2, under_append_left]
      cases h3 : under (splitPath g).dropLast (splitPath f0) with
      | false => rfl
      | true =>
        have h4 := under_trans h3 (under_dropLast (splitPath g))
        rw [h4] at hnug
        exact Bool.noConfusion hnug
    cases v with
    | file cnt =>
      simp only [isFileB]
      rw [if_true]
      cases hens : ensureDirF fs (td ++ ("outputs" :: splitPath g).dropLast) with
      | error e => exact hx
      | ok fs2 =>
        dsimp only
        have hfs2x : fs2.lookup (td ++ "outputs" :: splitPath f0) = none :=
          ensureDirF_keep_none hens hDd hx
        have hfs2m : fs2.lookup (c.root ++ splitPath f0) = none := by
          rw [ensureDirF_frame hens (indep_extend hdir hind)]
          exact hmiss
        cases hsrc2 : fs2.lookup (c.root ++ splitPath g) with
        | none => exact hfs2x
        | some v2 =>
          dsimp only
          cases hput : putAt fs2 (td ++ "outputs" :: splitPath g) v2 with
          | error e => exact hfs2x
          | ok fs3 =>
            exact putAt_keep_absent c td g f0 hput hsrc2 hnug hfs2x hfs2m
    | dir es0 =>
      simp only [isFileB]
      rw [if_neg Bool.false_ne_true]
      cases hens : ensureDirF fs (td ++ "outputs" :: splitPath g) with
      | error e => exact hx
      | ok fs2 =>
        dsimp only
        have hfs2x : fs2.lookup (td ++ "outputs" :: splitPath f0) = none :=
          ensureDirF_keep_none hens hDc hx
        have hfs2m : fs2.lookup (c.root ++ splitPath f0) = none := by
          rw [ensureDirF_frame hens (indep_extend hc hind)]
          exact hmiss
        cases hsrc2 : fs2.lookup (c.root ++ splitPath g) with
        | none => exact hfs2x
        | some v2 =>
          dsimp only
          cases hput : putAt fs2 (td ++ "outputs" :: splitPath g) v2 with
          | error e => exact hfs2x
          | ok fs3 =>
            exact putAt_keep_absent c td g f0 hput hsrc2 hnug hfs2x hfs2m

/-- The whole copy loop keeps the absent path's slot under `outputs/` empty.
Hypotheses: the absent path's workspace subtree is absent, the workspace
region is independent of the copy target, the slot starts empty, and no
other processed output extends below the absent path. -/
theorem copyOutputsLoop_keep_absent (c : Cache) (td : List String) (f0 : String)
    (hind : indep (c.root ++ splitPath f0) (td ++ ["outputs"]) = true) :
    ∀ (l : List String) (fs : FSNode),
      fs.lookup (c.root ++ splitPath f0) = none →
      (∀ g ∈ l, g = f0 ∨ under (splitPath g) (splitPath f0) = false) →
      fs.lookup (td ++ "outputs" :: splitPath f0) = none →
      ((c.copyOutputsLoop td l fs).fs).lookup (td ++ "outputs" :: splitPath f0) = none := by
  intro l
  induction l with
  | nil =>
    intro fs _ _ h3
    exact h3
  | cons g rest ih =>
    intro fs h1 h2 h3
    rw [loop_cons_eq]
    rcases hstep : c.copyOutputStep td g fs with ⟨r2, fs2, evs2⟩
    have hnu : fs.lookup (c.root ++ splitPath g) = none ∨
        under (splitPath g) (splitPath f0) = false := by
      rcases h2 g (List.mem_cons_self g rest) with hgf | hgf
      · subst hgf
        exact Or.inl h1
      · exact Or.inr hgf
    have hfs2x : fs2.lookup (td ++ "outputs" :: splitPath f0) = none := by
      have h4 := copyOutputStep_keep_absent c td g f0 fs hind h1 hnu h3
      rw [hstep] at h4
      exact h4
    have hfs2m : fs2.lookup (c.root ++ splitPath f0) = none := by
      have h4 := copyOutputStep_frame c td g fs hind
      rw [hstep] at h4
      have h5 : fs2.lookup (c.root ++ splitPath f0) =
          fs.lookup (c.root ++ splitPath f0) := h4
      rw [h5]
      exact h1
    cases r2 with
    | error e =>
      rw [run_bind_error _ hstep]
      exact hfs2x
    | ok a =>
      cases a
      rw [run_bind_ok _ hstep]
      exact ih fs2 hfs2m (fun g2 hg2 => h2 g2 (List.mem_cons_of_mem g hg2)) hfs2x

/-- Anything under the workspace is independent of anything under the cache
directory, given the two are independent. -/
theorem root_sep (c : Cache) (hroot : indep c.root c.cachePath = true) (f : String)
    {w : List String} (hw : under w c.cachePath = true) :
    indep (c.root ++ splitPath f) w = true := by
  have h1 : indep (c.root ++ splitPath f) c.cachePath = true := by
    rw [indep_symm]
    exact indep_extend (under_append c.root (splitPath f))
      (by rw [indep_symm]; exact hroot)
  exact indep_extend hw h1

/-- C8: a declared output absent from the workspace at call time contributes
nothing to `put` — the whole call (result, disk, trace) equals the call with
that path dropped from the list, so the missing output can never cause an
error — and on success nothing sits at that path's slot under the entry's
`outputs/` directory. (Hypotheses: workspace and cache directory are
independent, and no other declared output extends below the missing path.) -/
theorem claim8 (c : Cache) (t : Task) (tout : Option String) (outs : List String)
    (cd : Int) (fs : FSNode) (f0 : String)
    (hmiss : fs.lookup (c.root ++ splitPath f0) = none)
    (hroot : indep c.root c.cachePath = true)
    (hnest : ∀ g ∈ outs, g ≠ f0 → under (splitPath g) (splitPath f0) = false) :
    c.put t tout outs cd fs =
      c.put t tout (outs.filter (fun g => g != f0)) cd fs ∧
    ((c.put t tout outs cd fs).res = Except.ok () →
      ((c.put t tout outs cd fs).fs).lookup
        ((c.cachePath ++ [t.hash, "outputs"]) ++ splitPath f0) = none) := by
  have hgtd := root_sep c hroot f0 (under_append c.cachePath [t.hash])
  have hgcm := root_sep c hroot f0 (under_append c.cachePath [t.hash ++ ".commit"])
  have hto := root_sep c hroot f0 (under_append c.cachePath [t.hash, "terminalOutput"])
  have hout := root_sep c hroot f0 (under_append c.cachePath [t.hash, "outputs"])
  have hindO : indep (c.root ++ splitPath f0)
      ((c.cachePath ++ [t.hash]) ++ ["outputs"]) = true :=
    root_sep c hroot f0 (under_trans (under_append c.cachePath [t.hash])
      (under_append (c.cachePath ++ [t.hash]) ["outputs"]))
  constructor
  · cases hmk3 : mkdirF (removeF (removeF fs (c.cachePath ++ [t.hash ++ ".commit"]))
        (c.cachePath ++ [t.hash])) (c.cachePath ++ [t.hash]) with
    | error e3 =>
      simp [Cache.put, Bind.bind, M.bind, removeM, mkdirM, hmk3]
    | ok fs3 =>
      cases hw4 : writeF fs3 (c.cachePath ++ [t.hash, "terminalOutput"])
          (tout.getD "no terminal output") with
      | error e4 =>
        simp [Cache.put, Bind.bind, M.bind, removeM, mkdirM, writeFileM, hmk3, hw4]
      | ok fs4 =>
        cases hmk5 : mkdirF fs4 (c.cachePath ++ [t.hash, "outputs"]) with
        | error e5 =>
          simp [Cache.put, Bind.bind, M.bind, removeM, mkdirM, writeFileM, hmk3, hw4, hmk5]
        | ok fs5 =>
          have hm5 : fs5.lookup (c.root ++ splitPath f0) = none := by
            have hcalc : fs5.lookup (c.root ++ splitPath f0) =
                fs.lookup (c.root ++ splitPath f0) :=
              calc fs5.lookup (c.root ++ splitPath f0)
                  = fs4.lookup (c.root ++ splitPath f0) := mkdirF_frame hmk5 hout
                _ = fs3.lookup (c.root ++ splitPath f0) := writeF_frame hw4 hto
                _ = (removeF (removeF fs (c.cachePath ++ [t.hash ++ ".commit"]))
                      (c.cachePath ++ [t.hash])).lookup (c.root ++ splitPath f0) :=
                    mkdirF_frame hmk3 hgtd
                _ = (removeF fs (c.cachePath ++ [t.hash ++ ".commit"])).lookup
                      (c.root ++ splitPath f0) := removeF_frame _ hgtd
                _ = fs.lookup (c.root ++ splitPath f0) := removeF_frame _ hgcm
            rw [hcalc]
            exact hmiss
          have hloopeq := copyOutputsLoop_filter c (c.cachePath ++ [t.hash]) f0 hindO
            outs fs5 hm5
          simp [Cache.put, Bind.bind, M.bind, removeM, mkdirM, writeFileM,
            hmk3, hw4, hmk5, hloopeq]
  · intro hok
    rcases put_decomp c t tout outs cd fs with ⟨e, he⟩ | hch
    · rw [hok] at he
      exact Except.noConfusion he
    obtain ⟨fs3, fs4, fs5, fs6, fs7, fs8, evsL, hmk3, hw4, hmk5, hloop, hw7, hw8, hfs, -,
      -⟩ := hch
    rw [hfs]
    have hm5 : fs5.lookup (c.root ++ splitPath f0) = none := by
      have hcalc : fs5.lookup (c.root ++ splitPath f0) =
          fs.lookup (c.root ++ splitPath f0) :=
        calc fs5.lookup (c.root ++ splitPath f0)
            = fs4.lookup (c.root ++ splitPath f0) := mkdirF_frame hmk5 hout
          _ = fs3.lookup (c.root ++ splitPath f0) := writeF_frame hw4 hto
          _ = (removeF (removeF fs (c.cachePath ++ [t.hash ++ ".commit"]))
                (c.cachePath ++ [t.hash])).lookup (c.root ++ splitPath f0) :=
              mkdirF_frame hmk3 hgtd
          _ = (removeF fs (c.cachePath ++ [t.hash ++ ".commit"])).lookup
                (c.root ++ splitPath f0) := removeF_frame _ hgtd
          _ = fs.lookup (c.root ++ splitPath f0) := removeF_frame _ hgcm
      rw [hcalc]
      exact hmiss
    have hout5 : fs5.lookup (c.cachePath ++ [t.hash, "outputs"]) = some (FSNode.dir []) :=
      mkdirF_lookup_self hmk5
    have hx5 : fs5.lookup ((c.cachePath ++ [t.hash]) ++ "outputs" :: splitPath f0) =
        none := by
      rw [show (c.cachePath ++ [t.hash]) ++ "outputs" :: splitPath f0 =
          (c.cachePath ++ [t.hash, "outputs"]) ++ splitPath f0 from by simp,
        lookup_append, hout5]
      cases hsp : splitPath f0 with
      | nil => exact absurd hsp (splitPath_ne_nil f0)
      | cons a s => simp [FSNode.lookup, findEntry]
    have hx6 : fs6.lookup ((c.cachePath ++ [t.hash]) ++ "outputs" :: splitPath f0) =
        none := by
      have h4 := copyOutputsLoop_keep_absent c (c.cachePath ++ [t.hash]) f0 hindO outs fs5
        hm5
        (fun g hg => by
          by_cases hgf : g = f0
          · exact Or.inl hgf
          · exact Or.inr (hnest g hg hgf)) hx5
      rw [hloop] at h4
      exact h4
    have hcd : indep ((c.cachePath ++ [t.hash]) ++ "outputs" :: splitPath f0)
        (c.cachePath ++ [t.hash, "code"]) = true := by
      rw [show c.cachePath ++ [t.hash, "code"] = (c.cachePath ++ [t.hash]) ++ ["code"]
        from by simp]
      exact indep_append_ne (by decide) (c.cachePath ++ [t.hash]) (splitPath f0) []
    have hcm : indep ((c.cachePath ++ [t.hash]) ++ "outputs" :: splitPath f0)
        (c.cachePath ++ [t.hash ++ ".commit"]) = true := by
      rw [show (c.cachePath ++ [t.hash]) ++ "outputs" :: splitPath f0 =
          c.cachePath ++ t.hash :: "outputs" :: splitPath f0 from by simp]
      exact indep_append_ne (hash_ne_hash_commit t.hash) c.cachePath
        ("outputs" :: splitPath f0) []
    rw [show (c.cachePath ++ [t.hash, "outputs"]) ++ splitPath f0 =
        (c.cachePath ++ [t.hash]) ++ "outputs" :: splitPath f0 from by simp]
    rw [writeF_frame hw8 hcm, writeF_frame hw7 hcd]
    exact hx6

/-- C8 witness: "missing.txt" is absent from the workspace; putting
["missing.txt", "out.txt"] equals putting just ["out.txt"], succeeds, and
leaves nothing at outputs/missing.txt. -/
theorem claim8_witness :
    cacheNoRemote.put tH (some "hello") ["missing.txt", "out.txt"] 0 fsWork =
      cacheNoRemote.put tH (some "hello")
        (["missing.txt", "out.txt"].filter (fun g => g != "missing.txt")) 0 fsWork ∧
    ((cacheNoRemote.put tH (some "hello") ["missing.txt", "out.txt"] 0 fsWork).fs).lookup
        ((cacheNoRemote.cachePath ++ [tH.hash, "outputs"]) ++ splitPath "missing.txt") =
      none :=
  ⟨(claim8 cacheNoRemote tH (some "hello") ["missing.txt", "out.txt"] 0 fsWork
      "missing.txt" rfl rfl (by decide)).1,
   (claim8 cacheNoRemote tH (some "hello") ["missing.txt", "out.txt"] 0 fsWork
      "missing.txt" rfl rfl (by decide)).2 rfl⟩

/-! ## C4: the staleness test -/

/-- Closed form of one hash-record read: the recorded hash, the disk
untouched. -/
theorem getLatest_run (c : Cache) (output : String) (fs : FSNode) :
    c.getLatestRecordedHashForTask output fs =
      ⟨Except.ok (recordedHash c fs output), fs, []⟩ := by
  unfold Cache.getLatestRecordedHashForTask recordedHash
  cases h : readF fs (c.getFileNameWithLatestRecordedHashForOutput output) with
  | ok s => simp [tryM, Bind.bind, M.bind, readFileM, h, M.pure, Except.toOption]
  | error e => simp [tryM, Bind.bind, M.bind, readFileM, h, M.pure, Except.toOption]

/-- Closed form of the recorded-hash scan: true exactly when some output's
record is absent or differs. -/
theorem areLatest_run (c : Cache) (hash : String) :
    ∀ (outs : List String) (fs : FSNode),
      c.areLatestOutputsHashesDifferentThanTaskHash outs hash fs =
        ⟨Except.ok (outs.any (recordDiffers c fs hash)), fs, []⟩ := by
  intro outs
  induction outs with
  | nil => intro fs; rfl
  | cons o rest ih =>
    intro fs
    have hcons : c.areLatestOutputsHashesDifferentThanTaskHash (o :: rest) hash =
        c.getLatestRecordedHashForTask o >>= fun r =>
          if r ≠ some hash then M.pure true
          else c.areLatestOutputsHashesDifferentThanTaskHash rest hash := rfl
    rw [hcons, run_bind_ok _ (getLatest_run c o fs)]
    by_cases hd : recordedHash c fs o = some hash
    · have hp : recordDiffers c fs hash o = false := by simp [recordDiffers, hd]
      simp [hd, ih fs, hp, M.pure]
    · have hp : recordDiffers c fs hash o = true := by simp [recordDiffers, hd]
      simp [hd, hp, M.pure]

/-- Closed form of the drift scan on inputs where it does not raise (no
output has both copies present with one of them a file): true exactly when
some output drifted in the code's sense. -/
theorem isAnyOutputMissing_run (c : Cache) (cr : CachedResult) :
    ∀ (outs : List String) (fs : FSNode),
      (∀ o ∈ outs, mixedBothExist c cr fs o = false) →
      c.isAnyOutputMissing cr outs fs =
        ⟨Except.ok (outs.any (outputDrifted c cr fs)), fs, []⟩ := by
  intro outs
  induction outs with
  | nil => intro fs _; rfl
  | cons o rest ih =>
    intro fs hmix
    have htail : ∀ o2 ∈ rest, mixedBothExist c cr fs o2 = false :=
      fun o2 ho2 => hmix o2 (List.mem_cons_of_mem o ho2)
    have ihfs := ih fs htail
    cases h1 : fs.lookup (cr.outputsPath ++ splitPath o) with
    | none =>
      have hd : outputDrifted c cr fs o = false := by
        simp [outputDrifted, h1]
      simp [Cache.isAnyOutputMissing, Bind.bind, M.bind, existsA, lstatIsFileM,
        lstatIsFileF, readdirM, readdirF, M.pure, h1, hd, ihfs]
    | some v1 =>
      cases v1 with
      | file cnt1 =>
        cases h2 : fs.lookup (c.root ++ splitPath o) with
        | none =>
          have hd : outputDrifted c cr fs o = true := by
            simp [outputDrifted, h1, h2]
          simp [Cache.isAnyOutputMissing, Bind.bind, M.bind, existsA, lstatIsFileM,
            lstatIsFileF, readdirM, readdirF, M.pure, h1, h2, hd]
        | some v2 =>
          have hm : mixedBothExist c cr fs o = true := by
            simp [mixedBothExist, h1, h2]
          rw [hmix o (List.mem_cons_self o rest)] at hm
          exact Bool.noConfusion hm
      | dir es1 =>
        cases h2 : fs.lookup (c.root ++ splitPath o) with
        | none =>
          have hd : outputDrifted c cr fs o = true := by
            simp [outputDrifted, h1, h2]
          simp [Cache.isAnyOutputMissing, Bind.bind, M.bind, existsA, lstatIsFileM,
            lstatIsFileF, readdirM, readdirF, M.pure, h1, h2, hd]
        | some v2 =>
          cases v2 with
          | file cnt2 =>
            have hm : mixedBothExist c cr fs o = true := by
              simp [mixedBothExist, h1, h2]
            rw [hmix o (List.mem_cons_self o rest)] at hm
            exact Bool.noConfusion hm
          | dir es2 =>
            have hd : outputDrifted c cr fs o = (es1.length != es2.length) := by
              simp [outputDrifted, h1, h2]
            by_cases hlen : es1.length = es2.length
            · have hd2 : outputDrifted c cr fs o = false := by
                rw [hd]
                simp [hlen]
              simp [Cache.isAnyOutputMissing, Bind.bind, M.bind, existsA, lstatIsFileM,
                lstatIsFileF, readdirM, readdirF, M.pure, h1, h2, hd2, hlen, ihfs]
            · have hd2 : outputDrifted c cr fs o = true := by
                rw [hd]
                simp [hlen]
              simp [Cache.isAnyOutputMissing, Bind.bind, M.bind, existsA, lstatIsFileM,
                lstatIsFileF, readdirM, readdirF, M.pure, h1, h2, hd2, hlen]

/-- C4 (amended): on inputs where the drift scan does not raise (no output
has both copies present with one of them a file), `shouldCopyOutputsFromCache`
returns true iff some output's recorded hash is absent or differs from the
task hash, or some output drifted in the code's sense: its cached copy —
file **or directory** — exists while the workspace copy does not, or both
copies are directories with a different number of entries. (The claim's
clause (b), which covers only cached *files* with a missing workspace copy,
is refuted by `counterexample4`.) -/
theorem claim4_amended (c : Cache) (t : TaskWithCachedResult) (outs : List String)
    (fs : FSNode)
    (hmix : ∀ o ∈ outs, mixedBothExist c t.cachedResult fs o = false) :
    (c.shouldCopyOutputsFromCache t outs fs).res =
      Except.ok (outs.any (recordDiffers c fs t.task.hash) ||
        outs.any (outputDrifted c t.cachedResult fs)) := by
  have hcons : c.shouldCopyOutputsFromCache t outs =
      c.areLatestOutputsHashesDifferentThanTaskHash outs t.task.hash >>= fun a =>
        if a then M.pure true else c.isAnyOutputMissing t.cachedResult outs := rfl
  rw [hcons, run_bind_ok _ (areLatest_run c t.task.hash outs fs)]
  cases ha : outs.any (recordDiffers c fs t.task.hash) with
  | true => simp [M.pure]
  | false => simp [M.pure, isAnyOutputMissing_run c t.cachedResult outs fs hmix]

/-- C4 witness: matching hash record, both copies of "o" directories with
1 vs 0 entries — the scan reports drift. -/
theorem claim4_witness :
    (cacheNoRemote.shouldCopyOutputsFromCache ⟨tH, crX⟩ ["o"] fsDirDrift).res =
      Except.ok ((["o"].any (recordDiffers cacheNoRemote fsDirDrift tH.hash)) ||
        (["o"].any (outputDrifted cacheNoRemote crX fsDirDrift))) :=
  claim4_amended cacheNoRemote ⟨tH, crX⟩ ["o"] fsDirDrift (by decide)

/-- C4 counterexample: the recorded hash matches and the single output "o"
has a cached *directory* copy with the workspace copy absent. The claim's
biconditional says the test returns false (no recorded-hash difference, and
clause (b) requires the cached copy to be a *file*), but the code returns
true. -/
theorem counterexample4 :
    (cacheNoRemote.shouldCopyOutputsFromCache ⟨tH, crX⟩ ["o"] fsDirMissing).res =
      Except.ok true ∧
    claimShouldCopy cacheNoRemote fsDirMissing tH.hash crX ["o"] = false :=
  ⟨rfl, rfl⟩

/-- C9: the output-path → hash-record-file mapping (separators replaced by
'-') is not injective: the distinct outputs "a/b" and "a-b" share one record
file, so recording the hash for "a/b" is read back as the recorded hash of
"a-b", and removing "a-b"'s record erases "a/b"'s. -/
theorem claim9 :
    cacheNoRemote.getFileNameWithLatestRecordedHashForOutput "a/b" =
      cacheNoRemote.getFileNameWithLatestRecordedHashForOutput "a-b" ∧
    "a/b" ≠ "a-b" ∧
    (cacheNoRemote.getLatestRecordedHashForTask "a-b"
        ((cacheNoRemote.recordOutputsHash ["a/b"] "h1" fsWork).fs)).res =
      Except.ok (some "h1") ∧
    (cacheNoRemote.getLatestRecordedHashForTask "a/b"
        ((cacheNoRemote.removeRecordedOutputsHashes ["a-b"]
          ((cacheNoRemote.recordOutputsHash ["a/b"] "h1" fsWork).fs)).fs)).res =
      Except.ok none :=
  ⟨rfl, by decide, rfl, rfl⟩

end Nx
